import Mathlib

/-!
SeqGraph: a strand-aware sequence graph with twin edges.

A shallow embedding of `src/SeqGraph/SeqGraph.cpp`, and theorems about it.

Model.

* The container `m_vertices` (a vector of vertex pointers, `NULL` marking a
  deleted vertex) is a list of optional vertices. A vertex pointer is the index
  of the slot it points into, so a mutation through a pointer rewrites that slot.
* A failed `assert`, or the use of a pointer whose vertex has been deleted, is
  the result `none`; a function that returns normally yields `some` graph.
* The classes `Edge` and `Vertex` are declared outside the translated file. They
  are modelled from the specification (sections 3 and 4.1) and marked as such: an
  edge is the record `(start, end, direction, complement)`, a vertex owns the list
  of its outgoing edges in insertion order, `addEdge` appends and never fails,
  `removeEdge` removes one occurrence and fails when there is none.

Invariants.

* `WellFormed`: slot `i` holds the vertex with identity `i` (what `addVertex`
  enforces) and that vertex owns only edges starting at `i`.
* `TwinInv`: the twin invariant, by membership.
* `Balanced`: the twin invariant with multiplicities. It follows from `TwinInv`
  when no vertex holds an edge twice (`balanced_of_twinInv_nodup`) and it is the
  invariant the mutating operations preserve.

`WellFormed` holds of every graph built from the empty one by calls of the
container (`execAll_wellFormed`).

Where a statement is about the graph a failed assertion is reached with, the
function has a second embedding, named with a final `E`, that returns the graph
on both outcomes and agrees with the first (`mergeAlongEdgeE_toOption`).

Method.

Under `WellFormed` every loop of the container is a sequence of primitive
mutations `Op`, each inserting or removing one edge in the vertex the edge starts
at (`removeTwins_eq_run`, `mergeLoop_eq_run`, `flipLoop_eq_run`). `run_count`
gives the number of copies of every edge after such a sequence, `run_succeeds` a
criterion for it not to fail; the invariants are then a matter of counting.
-/

namespace SGA

/-! ## Edges -/

/-- Modelled from the spec: the enumeration `EdgeDir` of the missing edge header;
`ED_SENSE` is the forward direction, `ED_ANTISENSE` the backward one. -/
inductive EdgeDir where
  | ED_SENSE
  | ED_ANTISENSE
  deriving DecidableEq, Repr

/-- Modelled from the spec: the enumeration `EdgeComp` of the missing edge header;
`EC_SAME` is same-strand, `EC_REVERSE` is reverse-strand. -/
inductive EdgeComp where
  | EC_SAME
  | EC_REVERSE
  deriving DecidableEq, Repr

/-- Modelled from the spec: the operator `!` on directions (negation). -/
def EdgeDir.not : EdgeDir → EdgeDir
  | .ED_SENSE => .ED_ANTISENSE
  | .ED_ANTISENSE => .ED_SENSE

/-- Modelled from the spec: negation of the strand flag, used by `Edge::flip`. -/
def EdgeComp.not : EdgeComp → EdgeComp
  | .EC_SAME => .EC_REVERSE
  | .EC_REVERSE => .EC_SAME

/-- Modelled from the spec: the table `EDGE_DIRECTIONS` (of length `ED_COUNT = 2`)
of the missing edge header, the two directions in declaration order. -/
def EDGE_DIRECTIONS : List EdgeDir := [.ED_SENSE, .ED_ANTISENSE]

/-- Modelled from the spec: the class `Edge`, the value record
`(sourceId, targetId, direction, complement)` built by the four-argument
constructor `Edge e(id1, id2, dir, comp)`. -/
structure Edge where
  start : Nat
  end_ : Nat
  dir : EdgeDir
  comp : EdgeComp
  deriving DecidableEq, Repr

/-- Modelled from the spec: `Edge::getTwin`, the mirror edge `(v, u, dir', comp)` of
`(u, v, dir, comp)`, where `dir'` is `dir` negated when the complement is
same-strand and `dir` itself when it is reverse-strand. -/
def Edge.getTwin (e : Edge) : Edge :=
  { start := e.end_
    end_ := e.start
    dir := if e.comp = .EC_SAME then e.dir.not else e.dir
    comp := e.comp }

/-- Modelled from the spec: `Edge::flip`, which inverts both the direction and the
complement of an edge and keeps its endpoints. -/
def Edge.flip (e : Edge) : Edge :=
  { e with dir := e.dir.not, comp := e.comp.not }

/-! ## Vertices -/

/-- Modelled from the spec: the class `Vertex`, an identity and the owned list of
outgoing edges. The four buckets by (direction, complement) are the four classes
of this list; each keeps insertion order. Parallel edges are allowed (the graph
is a multigraph), so the list may hold an edge more than once. -/
structure Vertex where
  id : Nat
  edges : List Edge
  deriving DecidableEq, Repr

/-- Modelled from the spec: `Vertex::getID`. -/
def Vertex.getID (v : Vertex) : Nat := v.id

/-- Modelled from the spec: `Vertex::addEdge(Edge)`, which appends the edge to its
bucket and has no failure mode. -/
def Vertex.addEdge (v : Vertex) (e : Edge) : Vertex :=
  { v with edges := v.edges ++ [e] }

/-- Modelled from the spec: `Vertex::addEdge(VertexID, EdgeDir, EdgeComp)`, which adds
the edge from this vertex to `ep`. -/
def Vertex.addEdgeTo (v : Vertex) (ep : Nat) (dir : EdgeDir) (comp : EdgeComp) : Vertex :=
  v.addEdge ⟨v.id, ep, dir, comp⟩

/-- Modelled from the spec: `Vertex::hasEdge`. -/
def Vertex.hasEdge (v : Vertex) (e : Edge) : Bool :=
  decide (e ∈ v.edges)

/-- Modelled from the spec: `Vertex::removeEdge`, which fails (fatal invariant
violation) when the exact edge is absent and otherwise removes one occurrence. -/
def Vertex.removeEdge (v : Vertex) (e : Edge) : Option Vertex :=
  if v.hasEdge e then some { v with edges := v.edges.erase e } else none

/-- Modelled from the spec: `Vertex::findEdgesTo`, the edges whose target is `id`. -/
def Vertex.findEdgesTo (v : Vertex) (id : Nat) : List Edge :=
  v.edges.filter (fun e => decide (e.end_ = id))

/-- Modelled from the spec: `Vertex::getEdges()`, all edges of the vertex. -/
def Vertex.getEdges (v : Vertex) : List Edge := v.edges

/-- Modelled from the spec: `Vertex::getEdges(EdgeDir)`, the edges in one direction. -/
def Vertex.getEdgesDir (v : Vertex) (dir : EdgeDir) : List Edge :=
  v.edges.filter (fun e => decide (e.dir = dir))

/-- Modelled from the spec: `Vertex::countEdges()`. -/
def Vertex.countEdges (v : Vertex) : Nat := v.getEdges.length

/-- Modelled from the spec: `Vertex::countEdges(EdgeDir)`. -/
def Vertex.countEdgesDir (v : Vertex) (dir : EdgeDir) : Nat := (v.getEdgesDir dir).length

/-! ## The graph container -/

/-- The member `m_vertices`: slot `i` is `some v` for a live vertex and `none` for a
`NULL` pointer left by a deletion. -/
abbrev SeqGraph := List (Option Vertex)

/-- The function `SeqGraph::addVertex`: the identity must equal the number of slots. -/
def addVertex (g : SeqGraph) (pVert : Vertex) : Option SeqGraph :=
  if pVert.getID = g.length then some (g ++ [some pVert]) else none

/-- The function `SeqGraph::getVertex`: both assertions must pass. -/
def getVertex (g : SeqGraph) (id : Nat) : Option Vertex :=
  if id < g.length then
    match g[id]? with
    | some (some pVert) => some pVert
    | _ => none
  else none

/-- The call `p->addEdge(e)` through a vertex pointer `p`. -/
def ptrAddEdge (g : SeqGraph) (p : Nat) (e : Edge) : Option SeqGraph :=
  match getVertex g p with
  | none => none
  | some v => some (g.set p (some (v.addEdge e)))

/-- The call `p->removeEdge(e)` through a vertex pointer `p`. -/
def ptrRemoveEdge (g : SeqGraph) (p : Nat) (e : Edge) : Option SeqGraph :=
  match getVertex g p with
  | none => none
  | some v =>
    match v.removeEdge e with
    | none => none
    | some v1 => some (g.set p (some v1))

/-- The loop of `SeqGraph::removeVertex` over the copied edge vector `ev`: the twin
of each edge is removed from the vertex it starts at. -/
def removeTwins : List Edge → SeqGraph → Option SeqGraph
  | [], g => some g
  | it :: rest, g =>
    match ptrRemoveEdge g it.getTwin.start it.getTwin with
    | none => none
    | some g1 => removeTwins rest g1

/-- The function `SeqGraph::removeVertex`. -/
def removeVertex (g : SeqGraph) (id : Nat) : Option SeqGraph :=
  if id < g.length then
    match getVertex g id with
    | none => none
    | some pVertex =>
      match removeTwins pVertex.getEdges g with
      | none => none
      | some g1 => some (g1.set id none)
  else none

/-- The function `SeqGraph::addEdge`. -/
def addEdge (g : SeqGraph) (id1 id2 : Nat) (dir : EdgeDir) (comp : EdgeComp) :
    Option SeqGraph :=
  match getVertex g id1 with
  | none => none
  | some pVert1 => some (g.set id1 (some (pVert1.addEdgeTo id2 dir comp)))

/-- The function `SeqGraph::removeEdge`. -/
def removeEdge (g : SeqGraph) (id1 id2 : Nat) (dir : EdgeDir) (comp : EdgeComp) :
    Option SeqGraph :=
  ptrRemoveEdge g id1 ⟨id1, id2, dir, comp⟩

/-- One iteration of the loop of `SeqGraph::mergeAlongEdge` over `transEdges`. -/
def mergeStep (pV1 : Nat) (edge : Edge) (doFlip : Bool) (g : SeqGraph) (it : Edge) :
    Option SeqGraph :=
  let it1 := if doFlip then it.flip else it
  if it1.dir = edge.dir then
    match getVertex g pV1 with
    | none => none
    | some v1 =>
      let e : Edge := ⟨v1.getID, it1.end_, it1.dir, it1.comp⟩
      match ptrAddEdge g pV1 e with
      | none => none
      | some g1 => ptrAddEdge g1 e.getTwin.start e.getTwin
  else none

/-- The loop of `SeqGraph::mergeAlongEdge` over `transEdges`. -/
def mergeLoop (pV1 : Nat) (edge : Edge) (doFlip : Bool) : List Edge → SeqGraph → Option SeqGraph
  | [], g => some g
  | it :: rest, g =>
    match mergeStep pV1 edge doFlip g it with
    | none => none
    | some g1 => mergeLoop pV1 edge doFlip rest g1

/-- The function `SeqGraph::mergeAlongEdge`; `pV1` and `pV2` are vertex pointers. -/
def mergeAlongEdge (g : SeqGraph) (pV1 pV2 : Nat) (edge : Edge) : Option SeqGraph :=
  let twinEdge := edge.getTwin
  match getVertex g pV2 with
  | none => none
  | some v2 =>
    if v2.hasEdge twinEdge then
      let transEdges := v2.getEdgesDir twinEdge.dir.not
      let doFlip := decide (edge.comp = .EC_REVERSE)
      match mergeLoop pV1 edge doFlip transEdges g with
      | none => none
      | some g1 =>
        match ptrRemoveEdge g1 pV1 edge with
        | none => none
        | some g2 =>
          match ptrRemoveEdge g2 pV2 twinEdge with
          | none => none
          | some g3 =>
            match getVertex g3 pV2 with
            | none => none
            | some v2c =>
              if v2c.countEdgesDir twinEdge.dir = 0 then removeVertex g3 v2c.getID
              else some g3
    else none

/-- The function `SeqGraph::mergeVertices`; both diagnostics return without merging. -/
def mergeVertices (g : SeqGraph) (id1 id2 : Nat) : Option SeqGraph :=
  match getVertex g id1 with
  | none => none
  | some pVert1 =>
    match getVertex g id2 with
    | none => none
    | some _ =>
      let edgesTo := pVert1.findEdgesTo id2
      if edgesTo.isEmpty then some g
      else if edgesTo.length > 1 then some g
      else
        match edgesTo with
        | [] => none
        | mergeEdge :: _ => mergeAlongEdge g id1 id2 mergeEdge

/-- The body of the inner loop of `SeqGraph::simplify` for the vertex pointer `p`
and one direction. -/
def simplifyDir (p : Nat) (g : SeqGraph) (dir : EdgeDir) : Option SeqGraph :=
  match getVertex g p with
  | none => none
  | some v =>
    match v.getEdgesDir dir with
    | [single] =>
      match getVertex g single.end_ with
      | none => none
      | some _ => mergeAlongEdge g p single.end_ single
    | _ => some g

/-- The inner loop of `SeqGraph::simplify` over `EDGE_DIRECTIONS`. -/
def simplifyDirs (p : Nat) : List EdgeDir → SeqGraph → Option SeqGraph
  | [], g => some g
  | dir :: rest, g =>
    match simplifyDir p g dir with
    | none => none
    | some g1 => simplifyDirs p rest g1

/-- The outer loop of `SeqGraph::simplify` over the slots `ps`; deleted slots are
skipped. -/
def simplifyLoop : List Nat → SeqGraph → Option SeqGraph
  | [], g => some g
  | p :: rest, g =>
    match g[p]? with
    | some (some _) =>
      match simplifyDirs p EDGE_DIRECTIONS g with
      | none => none
      | some g1 => simplifyLoop rest g1
    | _ => simplifyLoop rest g

/-- The function `SeqGraph::simplify`. -/
def simplify (g : SeqGraph) : Option SeqGraph :=
  simplifyLoop (List.range g.length) g

/-- A warning of `SeqGraph::validate`: the start and the end of the offending edge. -/
abbrev Warning := Nat × Nat

/-- The inner loop of `SeqGraph::validate` over the edges of one vertex; `out` is
the text written to `cerr` so far. -/
def validateEdges (g : SeqGraph) : List Edge → List Warning → Option (List Warning)
  | [], out => some out
  | it :: rest, out =>
    match getVertex g it.end_ with
    | none => none
    | some pV2 =>
      if pV2.hasEdge it.getTwin then validateEdges g rest out
      else validateEdges g rest (out ++ [(it.start, it.end_)])

/-- The outer loop of `SeqGraph::validate` over the slots. -/
def validateLoop (g : SeqGraph) : List (Option Vertex) → List Warning → Option (List Warning)
  | [], out => some out
  | none :: rest, out => validateLoop g rest out
  | some v :: rest, out =>
    match validateEdges g v.getEdges out with
    | none => none
    | some out1 => validateLoop g rest out1

/-- The function `SeqGraph::validate`: the graph after the call and the warnings
written. -/
def validate (g : SeqGraph) : Option (SeqGraph × List Warning) :=
  match validateLoop g g [] with
  | none => none
  | some out => some (g, out)

/-- One iteration of the loop of `SeqGraph::flip`. -/
def flipStep (pVertex : Nat) (g : SeqGraph) (it : Edge) : Option SeqGraph :=
  let twin := it.getTwin
  let flipped := it.flip
  match ptrRemoveEdge g pVertex it with
  | none => none
  | some g1 =>
    match ptrAddEdge g1 pVertex flipped with
    | none => none
    | some g2 =>
      match ptrRemoveEdge g2 twin.start twin with
      | none => none
      | some g3 => ptrAddEdge g3 twin.start flipped.getTwin

/-- The loop of `SeqGraph::flip` over the copied edge vector. -/
def flipLoop (pVertex : Nat) : List Edge → SeqGraph → Option SeqGraph
  | [], g => some g
  | it :: rest, g =>
    match flipStep pVertex g it with
    | none => none
    | some g1 => flipLoop pVertex rest g1

/-- The function `SeqGraph::flip`. -/
def flip (g : SeqGraph) (id : Nat) : Option SeqGraph :=
  match getVertex g id with
  | none => none
  | some pVertex => flipLoop id pVertex.getEdges g

/-- The value of an `int` variable that is assigned the number `n`: `n` reduced
modulo `2^32` to the range from `-2^31` to `2^31 - 1`. -/
def wrapInt32 (n : Int) : Int :=
  (n + 2147483648) % 4294967296 - 2147483648

/-- The function `SeqGraph::stats`: the two numbers printed, `numVerts` and
`numEdges`. Both are `int` counters: each update stores its result as a 32-bit
value. -/
def stats (g : SeqGraph) : Int × Int :=
  g.foldl (fun acc slot =>
    match slot with
    | none => acc
    | some v => (wrapInt32 (acc.1 + 1), wrapInt32 (acc.2 + (v.countEdges : Int)))) (0, 0)


/-! ## Invariants -/

/-- The edges held by slot `i`; a deleted or absent slot holds none. -/
def edgesAt (g : SeqGraph) (i : Nat) : List Edge :=
  match getVertex g i with
  | some v => v.getEdges
  | none => []

/-- The representation of the data model: the vertex in slot `i` has identity `i`
(enforced by `addVertex`) and owns only edges that start at `i`. -/
def WellFormed (g : SeqGraph) : Prop :=
  ∀ i < g.length, ∀ v ∈ getVertex g i, v.getID = i ∧ ∀ e ∈ v.getEdges, e.start = i

/-- The twin invariant: every edge held by a live vertex points to a live vertex
that holds its twin. -/
def TwinInv (g : SeqGraph) : Prop :=
  ∀ i < g.length, ∀ v ∈ getVertex g i, ∀ e ∈ v.getEdges,
    ∃ w ∈ getVertex g e.end_, e.getTwin ∈ w.getEdges

/-- The twin invariant with multiplicities: every edge is held by its vertex exactly
as many times as its twin is held by the vertex it points to. -/
def Balanced (g : SeqGraph) : Prop :=
  ∀ i < g.length, ∀ e ∈ edgesAt g i,
    (edgesAt g i).count e = (edgesAt g e.end_).count e.getTwin

/-- No live vertex holds the same edge twice. -/
def NoDupEdges (g : SeqGraph) : Prop :=
  ∀ i < g.length, (edgesAt g i).Nodup

/-- Slot `id` holds no edge that points to `id` itself. -/
def NoSelfLoop (g : SeqGraph) (id : Nat) : Prop :=
  ∀ e ∈ edgesAt g id, e.end_ ≠ id

/-- All edge targets are live vertices. -/
def TargetsLive (g : SeqGraph) : Prop :=
  ∀ i < g.length, ∀ e ∈ edgesAt g i, (getVertex g e.end_).isSome = true

/-- No live vertex holds an edge whose target is `id`. -/
def NoEdgeTo (g : SeqGraph) (id : Nat) : Prop :=
  ∀ i < g.length, ∀ e ∈ edgesAt g i, e.end_ ≠ id

instance (g : SeqGraph) (id : Nat) : Decidable (NoEdgeTo g id) := by
  unfold NoEdgeTo; infer_instance

instance (g : SeqGraph) : Decidable (WellFormed g) := by
  unfold WellFormed; infer_instance

instance (g : SeqGraph) : Decidable (TwinInv g) := by
  unfold TwinInv; infer_instance

instance (g : SeqGraph) : Decidable (Balanced g) := by
  unfold Balanced; infer_instance

instance (g : SeqGraph) : Decidable (NoDupEdges g) := by
  unfold NoDupEdges; infer_instance

instance (g : SeqGraph) (id : Nat) : Decidable (NoSelfLoop g id) := by
  unfold NoSelfLoop; infer_instance

instance (g : SeqGraph) : Decidable (TargetsLive g) := by
  unfold TargetsLive; infer_instance

/-- Two graphs have the same slots, live in the same places with the same
identities. -/
def Same (g g1 : SeqGraph) : Prop :=
  g1.length = g.length ∧
    ∀ i, (getVertex g1 i).map Vertex.getID = (getVertex g i).map Vertex.getID

/-! ## Primitive mutations -/

/-- A primitive mutation: one edge is inserted into, or removed from, the vertex it
starts at. -/
inductive Op where
  | add (e : Edge)
  | rem (e : Edge)

/-- The effect of a primitive mutation on the graph. -/
def Op.apply (g : SeqGraph) : Op → Option SeqGraph
  | .add e => ptrAddEdge g e.start e
  | .rem e => ptrRemoveEdge g e.start e

/-- The effect of a primitive mutation on the edge list `l` of slot `i`. -/
def Op.effect (i : Nat) (l : List Edge) : Op → List Edge
  | .add e => if e.start = i then l ++ [e] else l
  | .rem e => if e.start = i then l.erase e else l

/-- A sequence of primitive mutations, stopping at the first failure. -/
def run : List Op → SeqGraph → Option SeqGraph
  | [], g => some g
  | op :: rest, g =>
    match op.apply g with
    | none => none
    | some g1 => run rest g1

/-- The effect of a sequence of primitive mutations on the edge list of slot `i`. -/
def effects (i : Nat) : List Op → List Edge → List Edge
  | [], l => l
  | op :: rest, l => effects i rest (op.effect i l)

/-- The edges a sequence of mutations inserts. -/
def adds : List Op → List Edge
  | [] => []
  | .add e :: rest => e :: adds rest
  | .rem _ :: rest => adds rest

/-- The edges a sequence of mutations removes. -/
def rems : List Op → List Edge
  | [] => []
  | .add _ :: rest => rems rest
  | .rem e :: rest => e :: rems rest

/-- The twin invariant with multiplicities, stated for every edge value. -/
def BalFull (g : SeqGraph) : Prop :=
  ∀ e : Edge, (edgesAt g e.start).count e = (edgesAt g e.end_).count e.getTwin

/-- Every edge of the list followed by its twin. -/
def pairs : List Edge → List Edge
  | [] => []
  | a :: rest => a :: a.getTwin :: pairs rest

/-- The edge that `mergeAlongEdge` anchors at `pV1` for the collected edge `it`. -/
def moved (pV1 : Nat) (doFlip : Bool) (it : Edge) : Edge :=
  let it1 := if doFlip then it.flip else it
  ⟨pV1, it1.end_, it1.dir, it1.comp⟩

/-- The primitive mutations of the loop of `mergeAlongEdge`. -/
def mergeOps (pV1 : Nat) (doFlip : Bool) : List Edge → List Op
  | [] => []
  | it :: rest =>
    .add (moved pV1 doFlip it) :: .add (moved pV1 doFlip it).getTwin :: mergeOps pV1 doFlip rest

/-- The primitive mutations of the loop of `flip`. -/
def flipOps : List Edge → List Op
  | [] => []
  | it :: rest =>
    .rem it :: .add it.flip :: .rem it.getTwin :: .add it.flip.getTwin :: flipOps rest

/-- The primitive mutations of the loop of `removeVertex`. -/
def removeOps : List Edge → List Op
  | [] => []
  | it :: rest => .rem it.getTwin :: removeOps rest

/-- The primitive mutations of `mergeAlongEdge` before the deletion check: the loop
over the collected edges `trans`, then the removal of `edge` and of its twin. -/
def mergeAllOps (pV1 : Nat) (edge : Edge) (trans : List Edge) : List Op :=
  mergeOps pV1 (decide (edge.comp = .EC_REVERSE)) trans ++ [.rem edge, .rem edge.getTwin]

/-! ## Concrete graphs -/

/-- The chain `A = 0`, `B = 1`, `C = 2`: `A→B` forward/same-strand with its twin
`B→A` backward/same-strand, and `B→C` forward/same-strand with its twin `C→B`. -/
def chainGraph : SeqGraph :=
  [some ⟨0, [⟨0, 1, .ED_SENSE, .EC_SAME⟩]⟩,
   some ⟨1, [⟨1, 0, .ED_ANTISENSE, .EC_SAME⟩, ⟨1, 2, .ED_SENSE, .EC_SAME⟩]⟩,
   some ⟨2, [⟨2, 1, .ED_ANTISENSE, .EC_SAME⟩]⟩]

/-- The chain in which `C` holds its edge to `B` twice while `B` holds the twin
once; it is built by calling `addEdge(2, 1, backward, same-strand)` twice. -/
def dupGraph : SeqGraph :=
  [some ⟨0, [⟨0, 1, .ED_SENSE, .EC_SAME⟩]⟩,
   some ⟨1, [⟨1, 0, .ED_ANTISENSE, .EC_SAME⟩, ⟨1, 2, .ED_SENSE, .EC_SAME⟩]⟩,
   some ⟨2, [⟨2, 1, .ED_ANTISENSE, .EC_SAME⟩, ⟨2, 1, .ED_ANTISENSE, .EC_SAME⟩]⟩]

/-- Two vertices joined by `0→1` and its twin, where vertex `1` also holds an edge
to itself and the twin of that edge. -/
def loopAtTargetGraph : SeqGraph :=
  [some ⟨0, [⟨0, 1, .ED_SENSE, .EC_SAME⟩]⟩,
   some ⟨1, [⟨1, 0, .ED_ANTISENSE, .EC_SAME⟩, ⟨1, 1, .ED_SENSE, .EC_SAME⟩,
     ⟨1, 1, .ED_ANTISENSE, .EC_SAME⟩]⟩]

/-- One vertex holding a reverse-strand edge to itself, which is its own twin. -/
def selfTwinGraph : SeqGraph :=
  [some ⟨0, [⟨0, 0, .ED_SENSE, .EC_REVERSE⟩]⟩]

/-- Vertex `0` holds `0→1` forward/same-strand once and `0→1`
backward/reverse-strand twice; vertex `1` holds each twin once. -/
def unevenGraph : SeqGraph :=
  [some ⟨0, [⟨0, 1, .ED_SENSE, .EC_SAME⟩, ⟨0, 1, .ED_ANTISENSE, .EC_REVERSE⟩,
     ⟨0, 1, .ED_ANTISENSE, .EC_REVERSE⟩]⟩,
   some ⟨1, [⟨1, 0, .ED_ANTISENSE, .EC_SAME⟩, ⟨1, 0, .ED_ANTISENSE, .EC_REVERSE⟩]⟩]

/-- Vertex `0` holds an edge to slot `1`, whose vertex has been deleted. -/
def danglingGraph : SeqGraph :=
  [some ⟨0, [⟨0, 1, .ED_SENSE, .EC_SAME⟩]⟩, none]

/-- Vertex `1` holds an edge to vertex `0`, which does not hold the twin. -/
def oneWayGraph : SeqGraph :=
  [some ⟨0, []⟩, some ⟨1, [⟨1, 0, .ED_SENSE, .EC_SAME⟩]⟩]

/-- The target of `e` does not hold the twin of `e`. -/
def twinMissing (g : SeqGraph) (e : Edge) : Bool :=
  match getVertex g e.end_ with
  | some w => !w.hasEdge e.getTwin
  | none => true

/-- The warnings for one vertex: its edges whose target does not hold their twin,
in the order the vertex enumerates them. -/
def violationsOf (g : SeqGraph) (v : Vertex) : List Warning :=
  (v.getEdges.filter (twinMissing g)).map (fun e => (e.start, e.end_))

/-- The violation report: the warnings of the live vertices, in ascending slot
order. -/
def violations (g : SeqGraph) : List Warning :=
  (g.filterMap id).flatMap (violationsOf g)

/-! ## Calls with the graph kept on failure -/

/-- The function `SeqGraph::addVertex` with the graph kept on both outcomes: `.ok g1`
is a normal return with graph `g1`, `.error g1` a failed assertion reached with
graph `g1`. -/
def addVertexE (g : SeqGraph) (pVert : Vertex) : Except SeqGraph SeqGraph :=
  if pVert.getID = g.length then .ok (g ++ [some pVert]) else .error g

/-- The function `SeqGraph::getVertex` with the graph kept on both outcomes: the
vertex found and the graph after the call, or the graph a failed assertion is
reached with. -/
def getVertexE (g : SeqGraph) (id : Nat) : Except SeqGraph (Vertex × SeqGraph) :=
  if id < g.length then
    match g[id]? with
    | some (some pVert) => .ok (pVert, g)
    | _ => .error g
  else .error g

/-! ## The Duplicate visitor -/

/-- The function `SGDuplicateVisitor::previsit`, whose body is empty. The graph
class `StringGraph` is declared outside the translated files and is a
parameter. -/
def SGDuplicateVisitor.previsit {G : Type} (pGraph : G) : G := pGraph

/-- The function `SGDuplicateVisitor::postvisit`, whose body is empty. -/
def SGDuplicateVisitor.postvisit {G : Type} (pGraph : G) : G := pGraph

/-- Two vertices with two parallel edges `0→1` forward/same-strand, and their
twins. -/
def parallelGraph : SeqGraph :=
  [some ⟨0, [⟨0, 1, .ED_SENSE, .EC_SAME⟩, ⟨0, 1, .ED_SENSE, .EC_SAME⟩]⟩,
   some ⟨1, [⟨1, 0, .ED_ANTISENSE, .EC_SAME⟩, ⟨1, 0, .ED_ANTISENSE, .EC_SAME⟩]⟩]

/-! ## Sequences of calls -/

/-- The second graph has the slots of the first, and what is deleted in the first
is deleted in the second. -/
def Keeps (g g1 : SeqGraph) : Prop :=
  g1.length = g.length ∧ ∀ i, getVertex g i = none → getVertex g1 i = none

/-- A call of one of the mutating functions of the container. -/
inductive Call where
  | addVertex (pVert : Vertex)
  | removeVertex (id : Nat)
  | addEdge (id1 id2 : Nat) (dir : EdgeDir) (comp : EdgeComp)
  | removeEdge (id1 id2 : Nat) (dir : EdgeDir) (comp : EdgeComp)
  | mergeVertices (id1 id2 : Nat)
  | simplify
  | flip (id : Nat)

/-- The effect of a call. -/
def Call.exec (g : SeqGraph) : Call → Option SeqGraph
  | .addVertex pVert => SGA.addVertex g pVert
  | .removeVertex id => SGA.removeVertex g id
  | .addEdge id1 id2 dir comp => SGA.addEdge g id1 id2 dir comp
  | .removeEdge id1 id2 dir comp => SGA.removeEdge g id1 id2 dir comp
  | .mergeVertices id1 id2 => SGA.mergeVertices g id1 id2
  | .simplify => SGA.simplify g
  | .flip id => SGA.flip g id

/-- A sequence of calls, stopping at the first failure. -/
def execAll : List Call → SeqGraph → Option SeqGraph
  | [], g => some g
  | c :: rest, g =>
    match c.exec g with
    | none => none
    | some g1 => execAll rest g1

/-- The call `p->addEdge(e)` with the graph kept on failure. -/
def ptrAddEdgeE (g : SeqGraph) (p : Nat) (e : Edge) : Except SeqGraph SeqGraph :=
  match getVertex g p with
  | none => .error g
  | some v => .ok (g.set p (some (v.addEdge e)))

/-- The call `p->removeEdge(e)` with the graph kept on failure. -/
def ptrRemoveEdgeE (g : SeqGraph) (p : Nat) (e : Edge) : Except SeqGraph SeqGraph :=
  match getVertex g p with
  | none => .error g
  | some v =>
    match v.removeEdge e with
    | none => .error g
    | some v1 => .ok (g.set p (some v1))

/-- The loop of `SeqGraph::removeVertex` with the graph kept on failure. -/
def removeTwinsE : List Edge → SeqGraph → Except SeqGraph SeqGraph
  | [], g => .ok g
  | it :: rest, g =>
    match ptrRemoveEdgeE g it.getTwin.start it.getTwin with
    | .error g1 => .error g1
    | .ok g1 => removeTwinsE rest g1

/-- The function `SeqGraph::removeVertex` with the graph kept on failure. -/
def removeVertexE (g : SeqGraph) (id : Nat) : Except SeqGraph SeqGraph :=
  if id < g.length then
    match getVertex g id with
    | none => .error g
    | some pVertex =>
      match removeTwinsE pVertex.getEdges g with
      | .error g1 => .error g1
      | .ok g1 => .ok (g1.set id none)
  else .error g

/-- One iteration of the loop of `SeqGraph::mergeAlongEdge` with the graph kept on
failure. -/
def mergeStepE (pV1 : Nat) (edge : Edge) (doFlip : Bool) (g : SeqGraph) (it : Edge) :
    Except SeqGraph SeqGraph :=
  let it1 := if doFlip then it.flip else it
  if it1.dir = edge.dir then
    match getVertex g pV1 with
    | none => .error g
    | some v1 =>
      let e : Edge := ⟨v1.getID, it1.end_, it1.dir, it1.comp⟩
      match ptrAddEdgeE g pV1 e with
      | .error g1 => .error g1
      | .ok g1 => ptrAddEdgeE g1 e.getTwin.start e.getTwin
  else .error g

/-- The loop of `SeqGraph::mergeAlongEdge` with the graph kept on failure. -/
def mergeLoopE (pV1 : Nat) (edge : Edge) (doFlip : Bool) :
    List Edge → SeqGraph → Except SeqGraph SeqGraph
  | [], g => .ok g
  | it :: rest, g =>
    match mergeStepE pV1 edge doFlip g it with
    | .error g1 => .error g1
    | .ok g1 => mergeLoopE pV1 edge doFlip rest g1

/-- The function `SeqGraph::mergeAlongEdge` with the graph kept on both outcomes:
`.ok g1` is a normal return with graph `g1`, `.error g1` a failed assertion
reached with graph `g1`. -/
def mergeAlongEdgeE (g : SeqGraph) (pV1 pV2 : Nat) (edge : Edge) : Except SeqGraph SeqGraph :=
  let twinEdge := edge.getTwin
  match getVertex g pV2 with
  | none => .error g
  | some v2 =>
    if v2.hasEdge twinEdge then
      let transEdges := v2.getEdgesDir twinEdge.dir.not
      let doFlip := decide (edge.comp = .EC_REVERSE)
      match mergeLoopE pV1 edge doFlip transEdges g with
      | .error g1 => .error g1
      | .ok g1 =>
        match ptrRemoveEdgeE g1 pV1 edge with
        | .error g2 => .error g2
        | .ok g2 =>
          match ptrRemoveEdgeE g2 pV2 twinEdge with
          | .error g3 => .error g3
          | .ok g3 =>
            match getVertex g3 pV2 with
            | none => .error g3
            | some v2c =>
              if v2c.countEdgesDir twinEdge.dir = 0 then removeVertexE g3 v2c.getID
              else .ok g3
    else .error g

/-- No vertex holds an edge that is its own twin (an edge from a vertex to itself
on the reverse strand). -/
def NoSelfTwin (g : SeqGraph) : Prop :=
  ∀ i, ∀ e ∈ edgesAt g i, e.getTwin ≠ e

/-- No vertex holds an edge to itself. -/
def NoSelfLoops (g : SeqGraph) : Prop :=
  ∀ i < g.length, NoSelfLoop g i

instance (g : SeqGraph) : Decidable (NoSelfLoops g) := by
  unfold NoSelfLoops; infer_instance

/-- The vertex handed to `addVertex` owns only edges that start at it (a fresh
vertex owns none). -/
def Call.OwnEdges : Call → Prop
  | .addVertex pVert => ∀ e ∈ pVert.getEdges, e.start = pVert.getID
  | _ => True

/-- Vertex `0` holds `2^31` copies of the edge `0→1`; vertex `1` holds none. -/
def hugeGraph : SeqGraph :=
  [some ⟨0, List.replicate 2147483648 ⟨0, 1, .ED_SENSE, .EC_SAME⟩⟩, some ⟨1, []⟩]

/-! ## Basic facts -/

theorem getVertex_eq_some {g : SeqGraph} {i : Nat} {v : Vertex} :
    getVertex g i = some v ↔ g[i]? = some (some v) := by
  unfold getVertex
  constructor
  · intro h
    split at h
    · split at h
      · next heq => simp at h; subst h; exact heq
      · simp at h
    · simp at h
  · intro h
    have hlt : i < g.length := by
      by_contra hc
      rw [List.getElem?_eq_none (by omega)] at h
      simp at h
    simp [hlt, h]

theorem getVertex_lt {g : SeqGraph} {i : Nat} {v : Vertex} (h : getVertex g i = some v) :
    i < g.length := by
  unfold getVertex at h
  split at h
  · assumption
  · simp at h

theorem getVertex_eq_none {g : SeqGraph} {i : Nat} :
    getVertex g i = none ↔ g[i]? = none ∨ g[i]? = some none := by
  constructor
  · intro h
    rcases hg : g[i]? with _ | s
    · exact Or.inl rfl
    · rcases s with _ | v
      · exact Or.inr rfl
      · rw [getVertex_eq_some.mpr hg] at h; simp at h
  · intro h
    rcases hv : getVertex g i with _ | v
    · rfl
    · rw [getVertex_eq_some.mp hv] at h; simp at h

theorem getVertex_set {g : SeqGraph} {p : Nat} (hp : p < g.length) (s : Option Vertex) (i : Nat) :
    getVertex (g.set p s) i = if i = p then s else getVertex g i := by
  by_cases hip : i = p
  · subst hip
    simp only [if_true]
    rcases s with _ | v
    · rw [getVertex_eq_none]; right; simp [List.getElem?_set, hp]
    · rw [getVertex_eq_some]; simp [List.getElem?_set, hp]
  · simp only [hip, if_false]
    have hne : (g.set p s)[i]? = g[i]? := List.getElem?_set_ne (Ne.symm hip)
    rcases hv : getVertex g i with _ | v
    · rw [getVertex_eq_none] at hv ⊢; rw [hne]; exact hv
    · rw [getVertex_eq_some] at hv ⊢; rw [hne]; exact hv

theorem mem_edgesAt {g : SeqGraph} {i : Nat} {e : Edge} :
    e ∈ edgesAt g i ↔ ∃ v, getVertex g i = some v ∧ e ∈ v.getEdges := by
  unfold edgesAt
  rcases getVertex g i with _ | v <;> simp

theorem edgesAt_of_getVertex {g : SeqGraph} {i : Nat} {v : Vertex} (h : getVertex g i = some v) :
    edgesAt g i = v.getEdges := by
  simp [edgesAt, h]

theorem edgesAt_of_none {g : SeqGraph} {i : Nat} (h : getVertex g i = none) :
    edgesAt g i = [] := by
  simp [edgesAt, h]

theorem lt_of_mem_edgesAt {g : SeqGraph} {i : Nat} {e : Edge} (h : e ∈ edgesAt g i) :
    i < g.length := by
  obtain ⟨v, hv, _⟩ := mem_edgesAt.mp h
  exact getVertex_lt hv

theorem Same.refl (g : SeqGraph) : Same g g := ⟨rfl, fun _ => rfl⟩

theorem Same.trans {g g1 g2 : SeqGraph} (h1 : Same g g1) (h2 : Same g1 g2) : Same g g2 :=
  ⟨h2.1.trans h1.1, fun i => (h2.2 i).trans (h1.2 i)⟩

theorem Same.live {g g1 : SeqGraph} (h : Same g g1) {i : Nat} {v : Vertex}
    (hv : getVertex g i = some v) : ∃ w, getVertex g1 i = some w ∧ w.getID = v.getID := by
  have := h.2 i
  rw [hv] at this
  rcases hw : getVertex g1 i with _ | w
  · rw [hw] at this; simp at this
  · rw [hw] at this; simp at this; exact ⟨w, rfl, this⟩

theorem Same.live_back {g g1 : SeqGraph} (h : Same g g1) {i : Nat} {w : Vertex}
    (hw : getVertex g1 i = some w) : ∃ v, getVertex g i = some v ∧ w.getID = v.getID := by
  have := h.2 i
  rw [hw] at this
  rcases hv : getVertex g i with _ | v
  · rw [hv] at this; simp at this
  · rw [hv] at this; simp at this; exact ⟨v, rfl, this⟩


/-! ## Primitive mutations: effect, success and counts -/

theorem ptrAddEdge_eq {g : SeqGraph} {p : Nat} {v : Vertex} (e : Edge)
    (hv : getVertex g p = some v) :
    ptrAddEdge g p e = some (g.set p (some (v.addEdge e))) := by
  simp [ptrAddEdge, hv]

theorem ptrRemoveEdge_eq_some {g g1 : SeqGraph} {p : Nat} {e : Edge}
    (h : ptrRemoveEdge g p e = some g1) :
    ∃ v, getVertex g p = some v ∧ e ∈ v.edges ∧
      g1 = g.set p (some { v with edges := v.edges.erase e }) := by
  unfold ptrRemoveEdge at h
  rcases hv : getVertex g p with _ | v
  · rw [hv] at h; simp at h
  · rw [hv] at h
    by_cases hm : e ∈ v.edges
    · simp [Vertex.removeEdge, Vertex.hasEdge, hm] at h
      exact ⟨v, rfl, hm, h.symm⟩
    · simp [Vertex.removeEdge, Vertex.hasEdge, hm] at h

theorem ptrRemoveEdge_of_mem {g : SeqGraph} {p : Nat} {e : Edge} (h : e ∈ edgesAt g p) :
    ∃ g1, ptrRemoveEdge g p e = some g1 := by
  obtain ⟨v, hv, hm⟩ := mem_edgesAt.mp h
  have hm1 : e ∈ v.edges := hm
  refine ⟨g.set p (some { v with edges := v.edges.erase e }), ?_⟩
  simp [ptrRemoveEdge, hv, Vertex.removeEdge, Vertex.hasEdge, hm1]

theorem same_set {g : SeqGraph} {p : Nat} {v w : Vertex} (hv : getVertex g p = some v)
    (hid : w.getID = v.getID) : Same g (g.set p (some w)) := by
  refine ⟨by simp, fun i => ?_⟩
  rw [getVertex_set (getVertex_lt hv)]
  by_cases hip : i = p
  · subst hip; simp [hv, hid]
  · simp [hip]

theorem edgesAt_set {g : SeqGraph} {p : Nat} {v w : Vertex} (hv : getVertex g p = some v)
    (i : Nat) : edgesAt (g.set p (some w)) i = if i = p then w.getEdges else edgesAt g i := by
  unfold edgesAt
  rw [getVertex_set (getVertex_lt hv)]
  by_cases hip : i = p <;> simp [hip]

theorem Op.apply_same {g g1 : SeqGraph} {op : Op} (h : op.apply g = some g1) : Same g g1 := by
  cases op with
  | add e =>
    simp only [Op.apply] at h
    rcases hv : getVertex g e.start with _ | v
    · simp [ptrAddEdge, hv] at h
    · rw [ptrAddEdge_eq e hv] at h
      simp at h; subst h
      exact same_set hv rfl
  | rem e =>
    simp only [Op.apply] at h
    obtain ⟨v, hv, _, rfl⟩ := ptrRemoveEdge_eq_some h
    exact same_set hv rfl

theorem Op.apply_edgesAt {g g1 : SeqGraph} {op : Op} (h : op.apply g = some g1) (i : Nat) :
    edgesAt g1 i = op.effect i (edgesAt g i) := by
  cases op with
  | add e =>
    simp only [Op.apply] at h
    rcases hv : getVertex g e.start with _ | v
    · simp [ptrAddEdge, hv] at h
    · rw [ptrAddEdge_eq e hv] at h
      simp at h; subst h
      rw [edgesAt_set hv]
      by_cases hip : i = e.start
      · subst hip
        simp [Op.effect, edgesAt_of_getVertex hv, Vertex.addEdge, Vertex.getEdges]
      · have hne : ¬ e.start = i := fun hh => hip hh.symm
        simp [Op.effect, hip, hne]
  | rem e =>
    simp only [Op.apply] at h
    obtain ⟨v, hv, _, rfl⟩ := ptrRemoveEdge_eq_some h
    rw [edgesAt_set hv]
    by_cases hip : i = e.start
    · subst hip
      simp [Op.effect, edgesAt_of_getVertex hv, Vertex.getEdges]
    · have hne : ¬ e.start = i := fun hh => hip hh.symm
      simp [Op.effect, hip, hne]

theorem Op.apply_rem_mem {g g1 : SeqGraph} {e : Edge} (h : (Op.rem e).apply g = some g1) :
    e ∈ edgesAt g e.start := by
  simp only [Op.apply] at h
  obtain ⟨v, hv, hm, _⟩ := ptrRemoveEdge_eq_some h
  exact mem_edgesAt.mpr ⟨v, hv, hm⟩

theorem run_append (ops1 ops2 : List Op) (g : SeqGraph) :
    run (ops1 ++ ops2) g = (run ops1 g).bind (run ops2) := by
  induction ops1 generalizing g with
  | nil => simp [run]
  | cons op rest ih =>
    simp only [List.cons_append, run]
    rcases op.apply g with _ | g1
    · simp
    · simp [ih]

theorem run_same {ops : List Op} {g g1 : SeqGraph} (h : run ops g = some g1) : Same g g1 := by
  induction ops generalizing g with
  | nil => simp [run] at h; subst h; exact Same.refl g
  | cons op rest ih =>
    simp only [run] at h
    rcases ha : op.apply g with _ | g2
    · rw [ha] at h; simp at h
    · rw [ha] at h
      exact (Op.apply_same ha).trans (ih h)

theorem run_edgesAt {ops : List Op} {g g1 : SeqGraph} (h : run ops g = some g1) (i : Nat) :
    edgesAt g1 i = effects i ops (edgesAt g i) := by
  induction ops generalizing g with
  | nil => simp [run] at h; subst h; rfl
  | cons op rest ih =>
    simp only [run] at h
    rcases ha : op.apply g with _ | g2
    · rw [ha] at h; simp at h
    · rw [ha] at h
      rw [ih h, Op.apply_edgesAt ha]
      rfl

/-- The count of every edge after a successful run, in additive form. -/
theorem run_count {ops : List Op} {g g1 : SeqGraph} (h : run ops g = some g1) (i : Nat)
    (x : Edge) :
    (edgesAt g1 i).count x + (if x.start = i then (rems ops).count x else 0) =
      (edgesAt g i).count x + (if x.start = i then (adds ops).count x else 0) := by
  induction ops generalizing g with
  | nil => simp [run] at h; subst h; simp [adds, rems]
  | cons op rest ih =>
    simp only [run] at h
    rcases ha : op.apply g with _ | g2
    · rw [ha] at h; simp at h
    · rw [ha] at h
      have hstep := Op.apply_edgesAt ha i
      have hrec := ih h
      cases op with
      | add e =>
        simp only [Op.effect] at hstep
        simp only [adds, rems, List.count_cons]
        by_cases hx : x.start = i
        · simp only [hx, if_true] at hrec ⊢
          by_cases hex : e = x
          · subst hex
            simp only [hx, if_true] at hstep
            rw [hstep, List.count_append] at hrec
            simp at hrec ⊢
            omega
          · by_cases hes : e.start = i
            · simp only [hes, if_true] at hstep
              rw [hstep, List.count_append] at hrec
              simp [hex, List.count_singleton] at hrec ⊢
              omega
            · simp only [hes, if_false] at hstep
              rw [hstep] at hrec
              simp [hex]
              omega
        · simp only [hx, if_false] at hrec ⊢
          by_cases hes : e.start = i
          · have hex : e ≠ x := fun hh => hx (hh ▸ hes)
            simp only [hes, if_true] at hstep
            rw [hstep, List.count_append] at hrec
            simp [hex, List.count_singleton] at hrec
            omega
          · simp only [hes, if_false] at hstep
            rw [hstep] at hrec
            omega
      | rem e =>
        have hmem := Op.apply_rem_mem ha
        simp only [Op.effect] at hstep
        simp only [adds, rems, List.count_cons]
        by_cases hx : x.start = i
        · simp only [hx, if_true] at hrec ⊢
          by_cases hex : e = x
          · subst hex
            simp only [hx, if_true] at hstep
            rw [hstep, List.count_erase_self] at hrec
            rw [hx] at hmem
            have hpos := List.count_pos_iff.mpr hmem
            simp
            omega
          · by_cases hes : e.start = i
            · simp only [hes, if_true] at hstep
              rw [hstep, List.count_erase_of_ne (Ne.symm hex)] at hrec
              simp [hex]
              omega
            · simp only [hes, if_false] at hstep
              rw [hstep] at hrec
              simp [hex]
              omega
        · simp only [hx, if_false] at hrec ⊢
          by_cases hes : e.start = i
          · have hex : e ≠ x := fun hh => hx (hh ▸ hes)
            simp only [hes, if_true] at hstep
            rw [hstep, List.count_erase_of_ne (Ne.symm hex)] at hrec
            omega
          · simp only [hes, if_false] at hstep
            rw [hstep] at hrec
            omega

/-- A run succeeds when every inserted edge starts at a live vertex and the initial
graph holds every edge at least as often as the run removes it. -/
theorem run_succeeds (ops : List Op) (g : SeqGraph)
    (hlive : ∀ a ∈ adds ops, (getVertex g a.start).isSome = true)
    (hstock : ∀ x, (rems ops).count x ≤ (edgesAt g x.start).count x) :
    ∃ g1, run ops g = some g1 := by
  induction ops generalizing g with
  | nil => exact ⟨g, rfl⟩
  | cons op rest ih =>
    cases op with
    | add e =>
      have hl := hlive e (by simp [adds])
      obtain ⟨v, hv⟩ := Option.isSome_iff_exists.mp hl
      have ha : (Op.add e).apply g = some (g.set e.start (some (v.addEdge e))) :=
        ptrAddEdge_eq e hv
      have hsame := Op.apply_same ha
      have hed := Op.apply_edgesAt ha
      simp only [run, ha]
      apply ih
      · intro a hmem
        have := hlive a (by simp [adds, hmem])
        obtain ⟨w, hw⟩ := Option.isSome_iff_exists.mp this
        obtain ⟨w1, hw1, _⟩ := hsame.live hw
        simp [hw1]
      · intro x
        have := hstock x
        simp only [rems] at this
        rw [hed x.start]
        simp only [Op.effect]
        split
        · rw [List.count_append]; omega
        · exact this
    | rem e =>
      have hs := hstock e
      simp only [rems, List.count_cons_self] at hs
      have hmem : e ∈ edgesAt g e.start := List.count_pos_iff.mp (by omega)
      obtain ⟨g2, ha0⟩ := ptrRemoveEdge_of_mem hmem
      have ha : (Op.rem e).apply g = some g2 := ha0
      have hsame := Op.apply_same ha
      have hed := Op.apply_edgesAt ha
      simp only [run, ha]
      apply ih
      · intro a hmem
        have := hlive a (by simp [adds, hmem])
        obtain ⟨w, hw⟩ := Option.isSome_iff_exists.mp this
        obtain ⟨w1, hw1, _⟩ := hsame.live hw
        simp [hw1]
      · intro x
        have := hstock x
        simp only [rems, List.count_cons] at this
        rw [hed x.start]
        simp only [Op.effect]
        by_cases hex : e = x
        · subst hex
          simp only [if_true, List.count_erase_self]
          simp at this
          omega
        · simp [hex] at this
          split
          · rw [List.count_erase_of_ne (Ne.symm hex)]; exact this
          · exact this

/-! ## Edge algebra -/

theorem EdgeDir.not_not (d : EdgeDir) : d.not.not = d := by
  cases d <;> rfl

theorem EdgeDir.not_ne (d : EdgeDir) : d.not ≠ d := by
  cases d <;> decide

theorem Edge.getTwin_getTwin (e : Edge) : e.getTwin.getTwin = e := by
  rcases e with ⟨s, t, d, c⟩
  cases c <;> simp [Edge.getTwin, EdgeDir.not_not]

theorem Edge.getTwin_injective : Function.Injective Edge.getTwin := by
  intro a b h
  have := congrArg Edge.getTwin h
  simpa [Edge.getTwin_getTwin] using this

theorem Edge.flip_injective : Function.Injective Edge.flip := by
  intro a b h
  rcases a with ⟨s, t, d, c⟩
  rcases b with ⟨s1, t1, d1, c1⟩
  cases d <;> cases d1 <;> cases c <;> cases c1 <;>
    simp_all [Edge.flip, EdgeDir.not, EdgeComp.not]

theorem Edge.getTwin_start (e : Edge) : e.getTwin.start = e.end_ := rfl

theorem Edge.getTwin_end (e : Edge) : e.getTwin.end_ = e.start := rfl

theorem Edge.flip_start (e : Edge) : e.flip.start = e.start := rfl

theorem Edge.flip_end (e : Edge) : e.flip.end_ = e.end_ := rfl

theorem Edge.getTwin_eq_iff (a b : Edge) : a.getTwin = b ↔ a = b.getTwin := by
  constructor
  · intro h; rw [← h, Edge.getTwin_getTwin]
  · intro h; rw [h, Edge.getTwin_getTwin]

theorem count_map_getTwin (l : List Edge) (x : Edge) :
    (l.map Edge.getTwin).count x = l.count x.getTwin := by
  have := List.count_map_of_injective l Edge.getTwin Edge.getTwin_injective x.getTwin
  rwa [Edge.getTwin_getTwin] at this

theorem count_pairs (l : List Edge) (x : Edge) :
    (pairs l).count x = l.count x + l.count x.getTwin := by
  induction l with
  | nil => simp [pairs]
  | cons a rest ih =>
    simp only [pairs, List.count_cons, ih]
    have h1 : (a.getTwin == x) = (a == x.getTwin) := by
      rw [Bool.eq_iff_iff]; simp [Edge.getTwin_eq_iff]
    rw [h1]
    omega

theorem count_pairs_getTwin (l : List Edge) (x : Edge) :
    (pairs l).count x.getTwin = (pairs l).count x := by
  rw [count_pairs, count_pairs, Edge.getTwin_getTwin]
  omega

/-! ## The loops as sequences of primitive mutations -/

theorem adds_append (a b : List Op) : adds (a ++ b) = adds a ++ adds b := by
  induction a with
  | nil => rfl
  | cons op rest ih => cases op <;> simp [adds, ih]

theorem rems_append (a b : List Op) : rems (a ++ b) = rems a ++ rems b := by
  induction a with
  | nil => rfl
  | cons op rest ih => cases op <;> simp [rems, ih]

theorem adds_removeOps (l : List Edge) : adds (removeOps l) = [] := by
  induction l with
  | nil => rfl
  | cons a rest ih => simp [removeOps, adds, ih]

theorem rems_removeOps (l : List Edge) : rems (removeOps l) = l.map Edge.getTwin := by
  induction l with
  | nil => rfl
  | cons a rest ih => simp [removeOps, rems, ih]

theorem adds_mergeOps (p : Nat) (f : Bool) (l : List Edge) :
    adds (mergeOps p f l) = pairs (l.map (moved p f)) := by
  induction l with
  | nil => rfl
  | cons a rest ih => simp [mergeOps, adds, pairs, ih]

theorem rems_mergeOps (p : Nat) (f : Bool) (l : List Edge) : rems (mergeOps p f l) = [] := by
  induction l with
  | nil => rfl
  | cons a rest ih => simp [mergeOps, rems, ih]

theorem adds_flipOps (l : List Edge) : adds (flipOps l) = pairs (l.map Edge.flip) := by
  induction l with
  | nil => rfl
  | cons a rest ih => simp [flipOps, adds, pairs, ih]

theorem rems_flipOps (l : List Edge) : rems (flipOps l) = pairs l := by
  induction l with
  | nil => rfl
  | cons a rest ih => simp [flipOps, rems, pairs, ih]

theorem removeTwins_eq_run (l : List Edge) (g : SeqGraph) :
    removeTwins l g = run (removeOps l) g := by
  induction l generalizing g with
  | nil => rfl
  | cons a rest ih =>
    simp only [removeTwins, removeOps, run, Op.apply]
    rcases ptrRemoveEdge g a.getTwin.start a.getTwin with _ | g1
    · rfl
    · exact ih g1

theorem flipStep_eq_run (p : Nat) (g : SeqGraph) (it : Edge) (hs : it.start = p) :
    flipStep p g it = run (flipOps [it]) g := by
  subst hs
  simp only [flipStep, flipOps, run, Op.apply, Edge.flip_start, Edge.getTwin_start,
    Edge.flip_end]
  rcases ptrRemoveEdge g it.start it with _ | g1
  · rfl
  · simp only []
    rcases ptrAddEdge g1 it.start it.flip with _ | g2
    · rfl
    · simp only []
      rcases ptrRemoveEdge g2 it.end_ it.getTwin with _ | g3
      · rfl
      · simp only []
        rcases ptrAddEdge g3 it.end_ it.flip.getTwin with _ | g4 <;> rfl

theorem flipLoop_eq_run (p : Nat) (l : List Edge) (g : SeqGraph) (hs : ∀ e ∈ l, e.start = p) :
    flipLoop p l g = run (flipOps l) g := by
  induction l generalizing g with
  | nil => rfl
  | cons a rest ih =>
    have hsplit : flipOps (a :: rest) = flipOps [a] ++ flipOps rest := by simp [flipOps]
    rw [hsplit, run_append, ← flipStep_eq_run p g a (hs a (by simp))]
    simp only [flipLoop]
    rcases flipStep p g a with _ | g1
    · rfl
    · simp only [Option.some_bind]
      exact ih g1 (fun e he => hs e (by simp [he]))

theorem mergeStep_eq_run (p : Nat) (edge : Edge) (f : Bool) (g : SeqGraph) (it : Edge)
    {v1 : Vertex} (hv : getVertex g p = some v1) (hid : v1.getID = p)
    (hdir : (if f then it.flip else it).dir = edge.dir) :
    mergeStep p edge f g it = run (mergeOps p f [it]) g := by
  have hm : (⟨v1.getID, (if f then it.flip else it).end_, edge.dir,
      (if f then it.flip else it).comp⟩ : Edge) = moved p f it := by
    simp [moved, hid, hdir]
  simp only [mergeStep, hdir, if_true, hv, hm, mergeOps, run, Op.apply]
  have hst : (moved p f it).start = p := rfl
  rw [hst]
  rcases ptrAddEdge g p (moved p f it) with _ | g1
  · rfl
  · simp only []
    rcases ptrAddEdge g1 (moved p f it).getTwin.start (moved p f it).getTwin with _ | g2 <;> rfl

theorem mergeLoop_eq_run (p : Nat) (edge : Edge) (f : Bool) (l : List Edge) (g : SeqGraph)
    {v1 : Vertex} (hv : getVertex g p = some v1) (hid : v1.getID = p)
    (hdir : ∀ it ∈ l, (if f then it.flip else it).dir = edge.dir) :
    mergeLoop p edge f l g = run (mergeOps p f l) g := by
  induction l generalizing g v1 with
  | nil => rfl
  | cons a rest ih =>
    have hsplit : mergeOps p f (a :: rest) = mergeOps p f [a] ++ mergeOps p f rest := by
      simp [mergeOps]
    rw [hsplit, run_append, ← mergeStep_eq_run p edge f g a hv hid (hdir a (by simp))]
    simp only [mergeLoop]
    rcases hstep : mergeStep p edge f g a with _ | g1
    · rfl
    · simp only [Option.some_bind]
      rw [mergeStep_eq_run p edge f g a hv hid (hdir a (by simp))] at hstep
      obtain ⟨w, hw, hwid⟩ := (run_same hstep).live hv
      exact ih g1 hw (hwid.trans hid) (fun e he => hdir e (by simp [he]))

/-- The direction check of `mergeAlongEdge` passes for every collected edge. -/
theorem merge_dir_ok (edge it : Edge) (h : it.dir = edge.getTwin.dir.not) :
    (if decide (edge.comp = .EC_REVERSE) then it.flip else it).dir = edge.dir := by
  rcases edge with ⟨s, t, d, c⟩
  rcases it with ⟨s1, t1, d1, c1⟩
  cases c <;> cases d <;> cases d1 <;> simp_all [Edge.getTwin, Edge.flip, EdgeDir.not]

/-! ## Preservation of the invariants -/

theorem WellFormed.id_eq {g : SeqGraph} (h : WellFormed g) {i : Nat} {v : Vertex}
    (hv : getVertex g i = some v) : v.getID = i :=
  (h i (getVertex_lt hv) v hv).1

theorem WellFormed.start_eq {g : SeqGraph} (h : WellFormed g) {i : Nat} {e : Edge}
    (he : e ∈ edgesAt g i) : e.start = i := by
  obtain ⟨v, hv, hm⟩ := mem_edgesAt.mp he
  exact (h i (getVertex_lt hv) v hv).2 e hm

theorem WellFormed.count_eq_zero {g : SeqGraph} (h : WellFormed g) {i : Nat} {e : Edge}
    (hne : e.start ≠ i) : (edgesAt g i).count e = 0 := by
  rw [List.count_eq_zero]
  exact fun hm => hne (h.start_eq hm)

theorem wellFormed_iff {g : SeqGraph} :
    WellFormed g ↔ (∀ i v, getVertex g i = some v → v.getID = i) ∧
      (∀ i e, e ∈ edgesAt g i → e.start = i) := by
  constructor
  · intro h
    exact ⟨fun i v hv => h.id_eq hv, fun i e he => h.start_eq he⟩
  · rintro ⟨h1, h2⟩ i _ v hv
    exact ⟨h1 i v hv, fun e he => h2 i e (mem_edgesAt.mpr ⟨v, hv, he⟩)⟩

theorem mem_effects {i : Nat} {ops : List Op} {l : List Edge} {e : Edge}
    (h : e ∈ effects i ops l) : e ∈ l ∨ (e ∈ adds ops ∧ e.start = i) := by
  induction ops generalizing l with
  | nil => exact Or.inl h
  | cons op rest ih =>
    simp only [effects] at h
    rcases ih h with h1 | ⟨h1, h2⟩
    · cases op with
      | add a =>
        simp only [Op.effect] at h1
        split at h1
        · next hs =>
          rcases List.mem_append.mp h1 with h3 | h3
          · exact Or.inl h3
          · simp at h3; subst h3
            exact Or.inr ⟨by simp [adds], hs⟩
        · exact Or.inl h1
      | rem a =>
        simp only [Op.effect] at h1
        split at h1
        · exact Or.inl (List.mem_of_mem_erase h1)
        · exact Or.inl h1
    · cases op with
      | add a => exact Or.inr ⟨by simp [adds, h1], h2⟩
      | rem a => exact Or.inr ⟨by simpa [adds] using h1, h2⟩

theorem run_wellFormed {ops : List Op} {g g1 : SeqGraph} (hwf : WellFormed g)
    (h : run ops g = some g1) : WellFormed g1 := by
  rw [wellFormed_iff] at hwf ⊢
  refine ⟨fun i w hw => ?_, fun i e he => ?_⟩
  · obtain ⟨v, hv, hid⟩ := (run_same h).live_back hw
    rw [hid]; exact hwf.1 i v hv
  · rw [run_edgesAt h i] at he
    rcases mem_effects he with h1 | ⟨_, h2⟩
    · exact hwf.2 i e h1
    · exact h2

theorem balFull_of_balanced {g : SeqGraph} (hb : Balanced g) : BalFull g := by
  intro e
  by_cases hm : e ∈ edgesAt g e.start
  · exact hb e.start (lt_of_mem_edgesAt hm) e hm
  · by_cases hm2 : e.getTwin ∈ edgesAt g e.end_
    · have := hb e.end_ (lt_of_mem_edgesAt hm2) e.getTwin hm2
      rw [Edge.getTwin_getTwin, Edge.getTwin_end] at this
      exact this.symm
    · rw [List.count_eq_zero.mpr hm, List.count_eq_zero.mpr hm2]

theorem balanced_of_balFull {g : SeqGraph} (hwf : WellFormed g) (hb : BalFull g) :
    Balanced g := by
  intro i _ e he
  have := hb e
  rwa [hwf.start_eq he] at this

theorem twinInv_of_balFull {g : SeqGraph} (hwf : WellFormed g) (hb : BalFull g) :
    TwinInv g := by
  intro i _ v hv e he
  have hmem : e ∈ edgesAt g i := mem_edgesAt.mpr ⟨v, hv, he⟩
  have hst := hwf.start_eq hmem
  have hpos : 0 < (edgesAt g e.start).count e := by
    rw [hst]; exact List.count_pos_iff.mpr hmem
  rw [hb e] at hpos
  obtain ⟨w, hw, hm⟩ := mem_edgesAt.mp (List.count_pos_iff.mp hpos)
  exact ⟨w, hw, hm⟩

/-- A twin-valid graph without duplicate edges satisfies the twin invariant with
multiplicities. -/
theorem balanced_of_twinInv_nodup {g : SeqGraph} (hti : TwinInv g) (hnd : NoDupEdges g) :
    Balanced g := by
  intro i hi e he
  obtain ⟨v, hv, hm⟩ := mem_edgesAt.mp he
  obtain ⟨w, hw, hm2⟩ := hti i hi v hv e hm
  have hw1 : getVertex g e.end_ = some w := hw
  have he2 : e.getTwin ∈ edgesAt g e.end_ := mem_edgesAt.mpr ⟨w, hw1, hm2⟩
  have h1 := List.nodup_iff_count_le_one.mp (hnd i hi) e
  have h2 := List.nodup_iff_count_le_one.mp (hnd e.end_ (getVertex_lt hw1)) e.getTwin
  have h3 := List.count_pos_iff.mpr he
  have h4 := List.count_pos_iff.mpr he2
  omega

theorem run_balFull {ops : List Op} {g g1 : SeqGraph} (hb : BalFull g)
    (h : run ops g = some g1)
    (hadd : ∀ x, (adds ops).count x.getTwin = (adds ops).count x)
    (hrem : ∀ x, (rems ops).count x.getTwin = (rems ops).count x) : BalFull g1 := by
  intro x
  have h1 := run_count h x.start x
  have h2 := run_count h x.end_ x.getTwin
  simp only [Edge.getTwin_start, if_true] at h1 h2
  have := hb x
  have := hadd x
  have := hrem x
  omega

/-! ## removeVertex -/

theorem removeVertex_eq_some {g g2 : SeqGraph} {id : Nat} (h : removeVertex g id = some g2) :
    ∃ v g1, getVertex g id = some v ∧ run (removeOps v.getEdges) g = some g1 ∧
      g2 = g1.set id none := by
  unfold removeVertex at h
  split at h
  · rcases hv : getVertex g id with _ | v
    · rw [hv] at h; simp at h
    · rw [hv] at h
      simp only [removeTwins_eq_run] at h
      rcases hr : run (removeOps v.getEdges) g with _ | g1
      · rw [hr] at h; simp at h
      · rw [hr] at h; simp at h
        exact ⟨v, g1, rfl, hr, h.symm⟩
  · simp at h

theorem removeVertex_of_run {g g1 : SeqGraph} {id : Nat} {v : Vertex}
    (hv : getVertex g id = some v) (hr : run (removeOps v.getEdges) g = some g1) :
    removeVertex g id = some (g1.set id none) := by
  unfold removeVertex
  simp [getVertex_lt hv, hv, removeTwins_eq_run, hr]

/-- The loop of `removeVertex` never fails on a graph that satisfies the twin
invariant with multiplicities. -/
theorem removeOps_succeeds {g : SeqGraph} (hwf : WellFormed g) (hb : BalFull g) (id : Nat) :
    ∃ g1, run (removeOps (edgesAt g id)) g = some g1 := by
  apply run_succeeds
  · intro a ha; rw [adds_removeOps] at ha; simp at ha
  · intro x
    rw [rems_removeOps, count_map_getTwin]
    by_cases hx : x.end_ = id
    · have := hb x.getTwin
      rw [Edge.getTwin_getTwin, Edge.getTwin_start, Edge.getTwin_end, hx] at this
      omega
    · rw [hwf.count_eq_zero (e := x.getTwin) (by rw [Edge.getTwin_start]; exact hx)]
      omega

/-- The graph after the loop of `removeVertex` and the deletion of the slot. -/
theorem tombstone_spec {g g1 : SeqGraph} {id : Nat} {v : Vertex} (hwf : WellFormed g)
    (hb : BalFull g) (hv : getVertex g id = some v)
    (hr : run (removeOps (edgesAt g id)) g = some g1) :
    WellFormed (g1.set id none) ∧ BalFull (g1.set id none) := by
  have hsame := run_same hr
  have hlt : id < g1.length := by rw [hsame.1]; exact getVertex_lt hv
  have hwf1 := run_wellFormed hwf hr
  have hget : ∀ i, getVertex (g1.set id none) i = if i = id then none else getVertex g1 i :=
    fun i => getVertex_set hlt none i
  have hed : ∀ i, edgesAt (g1.set id none) i = if i = id then [] else edgesAt g1 i := by
    intro i
    unfold edgesAt
    rw [hget]
    by_cases hi : i = id <;> simp [hi]
  have hcnt : ∀ i x, (edgesAt g1 i).count x +
      (if x.start = i then (edgesAt g id).count x.getTwin else 0) = (edgesAt g i).count x := by
    intro i x
    have := run_count hr i x
    rw [adds_removeOps, rems_removeOps, count_map_getTwin] at this
    simpa using this
  constructor
  · rw [wellFormed_iff] at hwf1 ⊢
    refine ⟨fun i w hw => ?_, fun i e he => ?_⟩
    · rw [hget] at hw
      by_cases hi : i = id
      · simp [hi] at hw
      · simp only [hi, if_false] at hw
        exact hwf1.1 i w hw
    · rw [hed] at he
      by_cases hi : i = id
      · simp [hi] at he
      · simp only [hi, if_false] at he
        exact hwf1.2 i e he
  · intro x
    rw [hed, hed]
    by_cases hs : x.start = id
    · by_cases he : x.end_ = id
      · simp [hs, he]
      · simp only [hs, he, if_true, if_false, List.count_nil]
        have h1 := hcnt x.end_ x.getTwin
        rw [Edge.getTwin_getTwin] at h1
        simp only [Edge.getTwin_start, if_true] at h1
        have h2 := hb x
        rw [hs] at h2
        omega
    · by_cases he : x.end_ = id
      · simp only [hs, he, if_true, if_false, List.count_nil]
        have h1 := hcnt x.start x
        simp only [if_true] at h1
        have h2 := hb x
        rw [he] at h2
        omega
      · simp only [hs, he, if_false]
        have h1 := hcnt x.start x
        have h2 := hcnt x.end_ x.getTwin
        rw [Edge.getTwin_getTwin] at h2
        simp only [Edge.getTwin_start, if_true] at h1 h2
        have h3 := hwf.count_eq_zero (e := x.getTwin) (i := id)
          (by rw [Edge.getTwin_start]; exact he)
        have h4 := hwf.count_eq_zero (e := x) (i := id) hs
        have h5 := hb x
        omega

theorem removeVertex_succeeds {g : SeqGraph} {id : Nat} {v : Vertex} (hwf : WellFormed g)
    (hb : BalFull g) (hv : getVertex g id = some v) :
    ∃ g1, run (removeOps (edgesAt g id)) g = some g1 ∧
      removeVertex g id = some (g1.set id none) := by
  obtain ⟨g1, hr⟩ := removeOps_succeeds hwf hb id
  refine ⟨g1, hr, ?_⟩
  rw [edgesAt_of_getVertex hv] at hr
  exact removeVertex_of_run hv hr

theorem removeVertex_valid {g g2 : SeqGraph} {id : Nat} (hwf : WellFormed g) (hb : BalFull g)
    (h : removeVertex g id = some g2) :
    WellFormed g2 ∧ BalFull g2 ∧ g2.length = g.length ∧ getVertex g2 id = none := by
  obtain ⟨v, g1, hv, hr, rfl⟩ := removeVertex_eq_some h
  rw [← edgesAt_of_getVertex hv] at hr
  obtain ⟨h1, h2⟩ := tombstone_spec hwf hb hv hr
  have hsame := run_same hr
  have hlt : id < g1.length := by rw [hsame.1]; exact getVertex_lt hv
  refine ⟨h1, h2, by simp [hsame.1], ?_⟩
  rw [getVertex_set hlt]; simp

/-! ## mergeAlongEdge -/

/-- The function `mergeAlongEdge` on a well-formed graph, for an edge from `p1` to
`p2`: a run of primitive mutations followed by the deletion check. -/
theorem mergeAlongEdge_eq {g : SeqGraph} {p1 p2 : Nat} {edge : Edge} {v1 v2 : Vertex}
    (h1 : getVertex g p1 = some v1) (hid : v1.getID = p1) (h2 : getVertex g p2 = some v2)
    (hs : edge.start = p1) (he : edge.end_ = p2) :
    mergeAlongEdge g p1 p2 edge =
      if v2.hasEdge edge.getTwin then
        (run (mergeAllOps p1 edge (v2.getEdgesDir edge.getTwin.dir.not)) g).bind (fun g3 =>
          match getVertex g3 p2 with
          | none => none
          | some v2c =>
            if v2c.countEdgesDir edge.getTwin.dir = 0 then removeVertex g3 v2c.getID
            else some g3)
      else none := by
  unfold mergeAlongEdge
  simp only [h2]
  split
  · have hdir : ∀ it ∈ v2.getEdgesDir edge.getTwin.dir.not,
        (if decide (edge.comp = .EC_REVERSE) then it.flip else it).dir = edge.dir := by
      intro it hit
      apply merge_dir_ok
      simp [Vertex.getEdgesDir] at hit
      exact hit.2
    rw [mergeLoop_eq_run p1 edge _ _ g h1 hid hdir]
    unfold mergeAllOps
    rw [run_append]
    rcases run (mergeOps p1 (decide (edge.comp = .EC_REVERSE))
      (v2.getEdgesDir edge.getTwin.dir.not)) g with _ | g1
    · rfl
    · simp only [Option.some_bind, run, Op.apply, Edge.getTwin_start, hs, he]
      rcases ptrRemoveEdge g1 p1 edge with _ | g2
      · rfl
      · simp only []
        rcases ptrRemoveEdge g2 p2 edge.getTwin with _ | g3
        · rfl
        · rfl
  · rfl

theorem adds_mergeAllOps (p : Nat) (edge : Edge) (l : List Edge) :
    adds (mergeAllOps p edge l) = pairs (l.map (moved p (decide (edge.comp = .EC_REVERSE)))) := by
  simp [mergeAllOps, adds_append, adds_mergeOps, adds]

theorem rems_mergeAllOps (p : Nat) (edge : Edge) (l : List Edge) :
    rems (mergeAllOps p edge l) = pairs [edge] := by
  simp [mergeAllOps, rems_append, rems_mergeOps, rems, pairs]

/-- A successful `mergeAlongEdge` on a well-formed graph, taken apart. -/
theorem mergeAlongEdge_eq_some {g g1 : SeqGraph} {p1 p2 : Nat} {edge : Edge} {v1 v2 : Vertex}
    (hwf : WellFormed g) (h1 : getVertex g p1 = some v1) (h2 : getVertex g p2 = some v2)
    (hmem : edge ∈ v1.getEdges) (he : edge.end_ = p2)
    (hm : mergeAlongEdge g p1 p2 edge = some g1) :
    ∃ g3 v2c, run (mergeAllOps p1 edge (v2.getEdgesDir edge.getTwin.dir.not)) g = some g3 ∧
      getVertex g3 p2 = some v2c ∧
      ((v2c.countEdgesDir edge.getTwin.dir = 0 ∧ removeVertex g3 p2 = some g1) ∨
        (v2c.countEdgesDir edge.getTwin.dir ≠ 0 ∧ g1 = g3)) := by
  have hs : edge.start = p1 := hwf.start_eq (mem_edgesAt.mpr ⟨v1, h1, hmem⟩)
  rw [mergeAlongEdge_eq h1 (hwf.id_eq h1) h2 hs he] at hm
  split at hm
  · rcases hr : run (mergeAllOps p1 edge (v2.getEdgesDir edge.getTwin.dir.not)) g with _ | g3
    · rw [hr] at hm; simp at hm
    · rw [hr] at hm
      simp only [Option.some_bind] at hm
      rcases hv : getVertex g3 p2 with _ | v2c
      · rw [hv] at hm; simp at hm
      · rw [hv] at hm
        simp only [] at hm
        have hid2 : v2c.getID = p2 := (run_wellFormed hwf hr).id_eq hv
        rw [hid2] at hm
        refine ⟨g3, v2c, rfl, hv, ?_⟩
        split at hm
        · next hc => exact Or.inl ⟨hc, hm⟩
        · next hc => simp at hm; exact Or.inr ⟨hc, hm.symm⟩
  · simp at hm

theorem mergeAllOps_valid {g g3 : SeqGraph} {p1 : Nat} {edge : Edge} {l : List Edge}
    (hwf : WellFormed g) (hb : BalFull g) (hr : run (mergeAllOps p1 edge l) g = some g3) :
    WellFormed g3 ∧ BalFull g3 := by
  refine ⟨run_wellFormed hwf hr, run_balFull hb hr ?_ ?_⟩
  · intro x; rw [adds_mergeAllOps]; exact count_pairs_getTwin _ x
  · intro x; rw [rems_mergeAllOps]; exact count_pairs_getTwin _ x

/-- A successful `mergeAlongEdge` keeps the representation and the twin invariant
with multiplicities. -/
theorem mergeAlongEdge_valid {g g1 : SeqGraph} {p1 p2 : Nat} {edge : Edge} {v1 v2 : Vertex}
    (hwf : WellFormed g) (hb : BalFull g) (h1 : getVertex g p1 = some v1)
    (h2 : getVertex g p2 = some v2) (hmem : edge ∈ v1.getEdges) (he : edge.end_ = p2)
    (hm : mergeAlongEdge g p1 p2 edge = some g1) :
    WellFormed g1 ∧ BalFull g1 ∧ g1.length = g.length := by
  obtain ⟨g3, v2c, hr, _, hcase⟩ := mergeAlongEdge_eq_some hwf h1 h2 hmem he hm
  obtain ⟨hwf3, hb3⟩ := mergeAllOps_valid hwf hb hr
  have hlen := (run_same hr).1
  rcases hcase with ⟨_, hrv⟩ | ⟨_, rfl⟩
  · obtain ⟨a, b, c, _⟩ := removeVertex_valid hwf3 hb3 hrv
    exact ⟨a, b, c.trans hlen⟩
  · exact ⟨hwf3, hb3, hlen⟩

/-! ## Claims about mergeAlongEdge and removeVertex -/

/-- C3, counterexample: in `oneWayGraph`, where vertex `0` does not hold the twin of
the edge `1→0`, `removeVertex(0)` succeeds and the live vertex `1` still holds its
edge to `0`. The same happens on a twin-valid graph: `dupGraph` satisfies the twin
invariant, `removeVertex(1)` succeeds, and afterwards the live vertex `2` still
holds an edge whose target is `1`. -/
theorem removeVertex_complete_counterexample :
    (∃ g1, removeVertex oneWayGraph 0 = some g1 ∧ ¬ NoEdgeTo g1 0 ∧
        ∃ v ∈ getVertex g1 1, ∃ e ∈ v.getEdges, e.end_ = 0) ∧
      TwinInv dupGraph ∧
      ∃ g1, removeVertex dupGraph 1 = some g1 ∧ ¬ NoEdgeTo g1 1 ∧
        ∃ v ∈ getVertex g1 2, ∃ e ∈ v.getEdges, e.end_ = 1 := by
  decide

/-- C3, amended: on a well-formed graph in which every held edge occurs exactly as
often as its twin occurs in the vertex it points to, after a successful
`removeVertex(id)` no live vertex holds an edge whose target is `id`. -/
theorem removeVertex_complete (g g1 : SeqGraph) (id : Nat)
    (hwf : WellFormed g) (hbal : Balanced g) (h : removeVertex g id = some g1) :
    NoEdgeTo g1 id := by
  obtain ⟨hwf1, hb1, _, hdead⟩ := removeVertex_valid hwf (balFull_of_balanced hbal) h
  intro i _ e hmem hend
  have hst := hwf1.start_eq hmem
  have hpos : 0 < (edgesAt g1 e.start).count e := by
    rw [hst]; exact List.count_pos_iff.mpr hmem
  rw [hb1 e, hend, edgesAt_of_none hdead] at hpos
  simp at hpos

/-- C3, witness: removing `B` from the chain. -/
theorem removeVertex_complete_witness :
    NoEdgeTo [some ⟨0, []⟩, none, some ⟨2, []⟩] 1 :=
  removeVertex_complete chainGraph _ 1 (by decide) (by decide) rfl

theorem moved_start (p : Nat) (f : Bool) (x : Edge) : (moved p f x).start = p := rfl

theorem moved_end (p : Nat) (f : Bool) (x : Edge) : (moved p f x).end_ = x.end_ := by
  cases f <;> rfl

theorem count_moved_of_end {l : List Edge} {t : Nat} (p : Nat) (f : Bool) {y : Edge}
    (h : ∀ x ∈ l, x.end_ ≠ t) (hy : y.end_ = t) : (l.map (moved p f)).count y = 0 := by
  rw [List.count_eq_zero]
  intro hm
  obtain ⟨x, hx, rfl⟩ := List.mem_map.mp hm
  exact h x hx ((moved_end p f x).symm.trans hy)

theorem count_moved_of_start (l : List Edge) {p : Nat} (f : Bool) {y : Edge}
    (hy : y.start ≠ p) : (l.map (moved p f)).count y = 0 := by
  rw [List.count_eq_zero]
  intro hm
  obtain ⟨x, _, rfl⟩ := List.mem_map.mp hm
  exact hy rfl

/-- The loop of `removeVertex` only removes edges. -/
theorem removeVertex_count_le {g g1 : SeqGraph} {id : Nat} (h : removeVertex g id = some g1)
    (i : Nat) (x : Edge) : (edgesAt g1 i).count x ≤ (edgesAt g i).count x := by
  obtain ⟨v, g0, hv, hr, rfl⟩ := removeVertex_eq_some h
  have hlt : id < g0.length := by rw [(run_same hr).1]; exact getVertex_lt hv
  have hc := run_count hr i x
  rw [adds_removeOps] at hc
  simp only [List.count_nil, ite_self, Nat.add_zero] at hc
  have hed : edgesAt (g0.set id none) i = if i = id then [] else edgesAt g0 i := by
    unfold edgesAt
    rw [getVertex_set hlt]
    by_cases hi : i = id <;> simp [hi]
  rw [hed]
  by_cases hi : i = id
  · simp [hi]
  · simp only [hi, if_false]; omega

/-- The effect of `removeVertex(id)` on another slot `i`: the twins of the edges of
`id` that point to `i` are removed. -/
theorem removeVertex_count_other {g g1 : SeqGraph} {id : Nat}
    (h : removeVertex g id = some g1) {i : Nat} (hi : i ≠ id) (x : Edge) :
    (edgesAt g1 i).count x + (if x.start = i then (edgesAt g id).count x.getTwin else 0) =
      (edgesAt g i).count x := by
  obtain ⟨v, g0, hv, hr, rfl⟩ := removeVertex_eq_some h
  have hlt : id < g0.length := by rw [(run_same hr).1]; exact getVertex_lt hv
  have hc := run_count hr i x
  rw [adds_removeOps, rems_removeOps, count_map_getTwin] at hc
  simp only [List.count_nil, ite_self, Nat.add_zero] at hc
  have hed : edgesAt (g0.set id none) i = edgesAt g0 i := by
    unfold edgesAt
    rw [getVertex_set hlt]
    simp [hi]
  rw [hed, edgesAt_of_getVertex hv]
  exact hc

/-- C2, counterexample: in `loopAtTargetGraph` the merge along `0→1` succeeds, yet
afterwards vertex `0` still holds the edge `0→1` (and vertex `1` its twin): the
edge of `1` to itself was re-anchored as a new copy of `0→1`. -/
theorem merge_conservation_counterexample :
    ∃ g1, mergeAlongEdge loopAtTargetGraph 0 1 ⟨0, 1, .ED_SENSE, .EC_SAME⟩ = some g1 ∧
      (⟨0, 1, .ED_SENSE, .EC_SAME⟩ : Edge) ∈ edgesAt g1 0 ∧
      (⟨0, 1, .ED_SENSE, .EC_SAME⟩ : Edge).getTwin ∈ edgesAt g1 1 := by
  decide

/-- C2, amended: on a well-formed graph, let `mergeAlongEdge(v1, v2, e)` succeed for
live `v1`, `v2` and an edge `e` held by `v1` and pointing to `v2`, where `v2`
holds no edge to itself. Then every edge `x` that `v2` held in the direction
opposite to that of `twin(e)` has its counterpart from `v1` to the target of `x`
held by `v1` afterwards (direction and complement both flipped exactly when `e` is
reverse-strand); if `v1` held `e` once it no longer holds `e`, and if `v2` held
`twin(e)` once it no longer holds `twin(e)`. -/
theorem merge_conservation (g g1 : SeqGraph) (p1 p2 : Nat) (e : Edge) (v1 v2 : Vertex)
    (hwf : WellFormed g)
    (h1 : getVertex g p1 = some v1) (h2 : getVertex g p2 = some v2)
    (hmem : e ∈ v1.getEdges) (hend : e.end_ = p2) (hns : NoSelfLoop g p2)
    (hm : mergeAlongEdge g p1 p2 e = some g1) :
    (∀ x ∈ v2.getEdges, x.dir = e.getTwin.dir.not →
        (if e.comp = .EC_REVERSE then { x.flip with start := p1 } else { x with start := p1 })
          ∈ edgesAt g1 p1) ∧
      ((edgesAt g p1).count e = 1 → e ∉ edgesAt g1 p1) ∧
      ((edgesAt g p2).count e.getTwin = 1 → e.getTwin ∉ edgesAt g1 p2) := by
  have he1 : e ∈ edgesAt g p1 := mem_edgesAt.mpr ⟨v1, h1, hmem⟩
  have hst : e.start = p1 := hwf.start_eq he1
  have hne : p1 ≠ p2 := by
    intro hh
    rw [hh] at he1
    exact hns e he1 hend
  have htw : e.getTwin ≠ e := by
    intro hh
    have := congrArg Edge.start hh
    rw [Edge.getTwin_start, hend, hst] at this
    exact hne this.symm
  obtain ⟨g3, v2c, hr, hv2c, hcase⟩ := mergeAlongEdge_eq_some hwf h1 h2 hmem hend hm
  have hwf3 := run_wellFormed hwf hr
  have hcnt := run_count hr
  rw [adds_mergeAllOps, rems_mergeAllOps] at hcnt
  have htrans : ∀ x ∈ v2.getEdgesDir e.getTwin.dir.not, x.end_ ≠ p2 := by
    intro x hx
    simp only [Vertex.getEdgesDir, List.mem_filter] at hx
    exact hns x (mem_edgesAt.mpr ⟨v2, h2, hx.1⟩)
  -- nothing that is removed after the loop can be one of the re-anchored edges
  have hkeep : ∀ i x, (edgesAt g1 i).count x ≤ (edgesAt g3 i).count x := by
    intro i x
    rcases hcase with ⟨_, hrv⟩ | ⟨_, rfl⟩
    · exact removeVertex_count_le hrv i x
    · exact Nat.le_refl _
  refine ⟨?_, ?_, ?_⟩
  · intro x hx hdir
    have hxt : x ∈ v2.getEdgesDir e.getTwin.dir.not := by
      simp only [Vertex.getEdgesDir, List.mem_filter]
      exact ⟨hx, by simpa using hdir⟩
    have hmv : (if e.comp = .EC_REVERSE then { x.flip with start := p1 }
        else { x with start := p1 }) = moved p1 (decide (e.comp = .EC_REVERSE)) x := by
      by_cases hc : e.comp = .EC_REVERSE <;> simp [hc, moved, Edge.flip]
    rw [hmv]
    generalize hn : moved p1 (decide (e.comp = .EC_REVERSE)) x = n
    have hns1 : n.start = p1 := by rw [← hn]; rfl
    have hne1 : n.end_ ≠ p2 := by rw [← hn, moved_end]; exact htrans x hxt
    have hnin : n ∈ (v2.getEdgesDir e.getTwin.dir.not).map
        (moved p1 (decide (e.comp = .EC_REVERSE))) := by
      rw [← hn]; exact List.mem_map_of_mem _ hxt
    have hc := hcnt p1 n
    simp only [hns1, if_true, count_pairs] at hc
    have h3 : [e].count n = 0 := by
      rw [List.count_eq_zero]; simp
      intro hh; exact hne1 (hh ▸ hend)
    have h4 : [e].count n.getTwin = 0 := by
      rw [List.count_eq_zero]; simp
      intro hh
      have := congrArg Edge.start hh
      rw [Edge.getTwin_start, hst] at this
      have h5 := congrArg Edge.end_ hh
      rw [Edge.getTwin_end, hns1, hend] at h5
      exact hne h5
    have h5 := List.count_pos_iff.mpr hnin
    have h6 : 0 < (edgesAt g3 p1).count n := by omega
    rcases hcase with ⟨_, hrv⟩ | ⟨_, rfl⟩
    · have h7 := removeVertex_count_other hrv hne n
      have h8 : (edgesAt g3 p2).count n.getTwin = 0 :=
        hwf3.count_eq_zero (by rw [Edge.getTwin_start]; exact hne1)
      simp only [hns1, if_true, h8] at h7
      exact List.count_pos_iff.mp (by omega)
    · exact List.count_pos_iff.mp h6
  · intro hone
    have hc := hcnt p1 e
    simp only [hst, if_true, count_pairs] at hc
    have h3 : [e].count e = 1 := by simp
    have h4 : [e].count e.getTwin = 0 := by
      rw [List.count_eq_zero]; simp
      intro hh; exact htw hh
    have h5 := count_moved_of_end p1 (decide (e.comp = .EC_REVERSE)) htrans hend
    have h6 : ((v2.getEdgesDir e.getTwin.dir.not).map
        (moved p1 (decide (e.comp = .EC_REVERSE)))).count e.getTwin = 0 :=
      count_moved_of_start _ _ (by rw [Edge.getTwin_start, hend]; exact fun hh => hne hh.symm)
    have h7 := hkeep p1 e
    rw [← List.count_eq_zero]
    omega
  · intro hone
    have hc := hcnt p2 e.getTwin
    simp only [Edge.getTwin_start, hend, if_true, count_pairs, Edge.getTwin_getTwin] at hc
    have h3 : [e].count e = 1 := by simp
    have h4 : [e].count e.getTwin = 0 := by
      rw [List.count_eq_zero]; simp
      intro hh; exact htw hh
    have h5 := count_moved_of_end p1 (decide (e.comp = .EC_REVERSE)) htrans hend
    have h6 : ((v2.getEdgesDir e.getTwin.dir.not).map
        (moved p1 (decide (e.comp = .EC_REVERSE)))).count e.getTwin = 0 :=
      count_moved_of_start _ _ (by rw [Edge.getTwin_start, hend]; exact fun hh => hne hh.symm)
    have h7 := hkeep p2 e.getTwin
    rw [← List.count_eq_zero]
    omega

/-- C2, witness: merging `A` and `B` of the chain along `A→B`. -/
theorem merge_conservation_witness :
    (∀ x ∈ ([⟨1, 0, .ED_ANTISENSE, .EC_SAME⟩, ⟨1, 2, .ED_SENSE, .EC_SAME⟩] : List Edge),
        x.dir = (⟨0, 1, .ED_SENSE, .EC_SAME⟩ : Edge).getTwin.dir.not →
        (if (⟨0, 1, .ED_SENSE, .EC_SAME⟩ : Edge).comp = .EC_REVERSE
          then { x.flip with start := 0 } else { x with start := 0 })
          ∈ edgesAt [some ⟨0, [⟨0, 2, .ED_SENSE, .EC_SAME⟩]⟩, none,
              some ⟨2, [⟨2, 0, .ED_ANTISENSE, .EC_SAME⟩]⟩] 0) ∧
      ((edgesAt chainGraph 0).count ⟨0, 1, .ED_SENSE, .EC_SAME⟩ = 1 →
        (⟨0, 1, .ED_SENSE, .EC_SAME⟩ : Edge) ∉
          edgesAt [some ⟨0, [⟨0, 2, .ED_SENSE, .EC_SAME⟩]⟩, none,
            some ⟨2, [⟨2, 0, .ED_ANTISENSE, .EC_SAME⟩]⟩] 0) ∧
      ((edgesAt chainGraph 1).count (⟨0, 1, .ED_SENSE, .EC_SAME⟩ : Edge).getTwin = 1 →
        (⟨0, 1, .ED_SENSE, .EC_SAME⟩ : Edge).getTwin ∉
          edgesAt [some ⟨0, [⟨0, 2, .ED_SENSE, .EC_SAME⟩]⟩, none,
            some ⟨2, [⟨2, 0, .ED_ANTISENSE, .EC_SAME⟩]⟩] 1) :=
  merge_conservation chainGraph _ 0 1 ⟨0, 1, .ED_SENSE, .EC_SAME⟩
    ⟨0, [⟨0, 1, .ED_SENSE, .EC_SAME⟩]⟩
    ⟨1, [⟨1, 0, .ED_ANTISENSE, .EC_SAME⟩, ⟨1, 2, .ED_SENSE, .EC_SAME⟩]⟩
    (by decide) rfl rfl (by decide) rfl (by decide) rfl

/-! ## flip -/

theorem mem_pairs {l : List Edge} {a : Edge} : a ∈ pairs l ↔ a ∈ l ∨ a.getTwin ∈ l := by
  rw [← List.count_pos_iff, count_pairs, ← List.count_pos_iff, ← List.count_pos_iff]
  omega

theorem flip_eq_run {g : SeqGraph} {id : Nat} {v : Vertex} (hwf : WellFormed g)
    (hv : getVertex g id = some v) : flip g id = run (flipOps (edgesAt g id)) g := by
  unfold flip
  simp only [hv]
  rw [edgesAt_of_getVertex hv]
  exact flipLoop_eq_run id v.getEdges g
    (fun e he => hwf.start_eq (mem_edgesAt.mpr ⟨v, hv, he⟩))

theorem filter_erase_of_false {p : Edge → Bool} {a : Edge} (l : List Edge) (h : p a = false) :
    (l.erase a).filter p = l.filter p := by
  induction l with
  | nil => rfl
  | cons b rest ih =>
    by_cases hb : b = a
    · subst hb
      rw [List.erase_cons_head, List.filter_cons_of_neg (by simp [h])]
    · rw [List.erase_cons_tail (by simpa using hb)]
      by_cases hp : p b = true
      · rw [List.filter_cons_of_pos hp, List.filter_cons_of_pos hp, ih]
      · rw [List.filter_cons_of_neg hp, List.filter_cons_of_neg hp, ih]

theorem effects_flipOps_other (A i : Nat) (l acc : List Edge) (hi : i ≠ A)
    (h : ∀ e ∈ l, e.start = A) :
    (effects i (flipOps l) acc).filter (fun x => decide (x.end_ ≠ A)) =
      acc.filter (fun x => decide (x.end_ ≠ A)) := by
  induction l generalizing acc with
  | nil => rfl
  | cons a rest ih =>
    have hs := h a (by simp)
    have hne : ¬ A = i := fun hh => hi hh.symm
    simp only [flipOps, effects, Op.effect, hs, hne, if_false, Edge.flip_start,
      Edge.getTwin_start, Edge.flip_end]
    rw [ih _ (fun e hm => h e (by simp [hm]))]
    by_cases he : a.end_ = i
    · simp only [he, if_true]
      rw [List.filter_append, filter_erase_of_false]
      · simp [Edge.getTwin, Edge.flip, hs]
      · simp [Edge.getTwin, hs]
    · simp only [he, if_false]

/-- On a well-formed graph with matching multiplicities, `flip(id)` succeeds when
`id` is live and holds no edge to itself. -/
theorem flip_succeeds {g : SeqGraph} {id : Nat} {v : Vertex} (hwf : WellFormed g)
    (hb : BalFull g) (hv : getVertex g id = some v) (hns : NoSelfLoop g id) :
    ∃ g1, run (flipOps (edgesAt g id)) g = some g1 := by
  have hti := twinInv_of_balFull hwf hb
  apply run_succeeds
  · intro a ha
    rw [adds_flipOps, mem_pairs] at ha
    rcases ha with h1 | h1
    · obtain ⟨e, he, rfl⟩ := List.mem_map.mp h1
      rw [Edge.flip_start, hwf.start_eq he, hv]; rfl
    · obtain ⟨e, he, hfe⟩ := List.mem_map.mp h1
      obtain ⟨u, hu, hm⟩ := mem_edgesAt.mp he
      obtain ⟨w, hw, _⟩ := hti id (getVertex_lt hu) u hu e hm
      have hw1 : getVertex g e.end_ = some w := hw
      have : a.start = e.end_ := by
        have := congrArg Edge.end_ hfe
        rw [Edge.flip_end, Edge.getTwin_end] at this
        exact this.symm
      rw [this, hw1]; rfl
  · intro x
    rw [rems_flipOps, count_pairs]
    by_cases hs : x.start = id
    · have h0 : (edgesAt g id).count x.getTwin = 0 := by
        rw [List.count_eq_zero]
        intro hm
        exact hns x.getTwin hm (by rw [Edge.getTwin_end]; exact hs)
      rw [hs, h0]
      omega
    · rw [hwf.count_eq_zero (e := x) (i := id) hs]
      by_cases he : x.end_ = id
      · have := hb x.getTwin
        rw [Edge.getTwin_getTwin, Edge.getTwin_start, Edge.getTwin_end, he] at this
        omega
      · rw [hwf.count_eq_zero (e := x.getTwin) (i := id)
          (by rw [Edge.getTwin_start]; exact he)]
        omega

theorem flipOps_valid {g g1 : SeqGraph} {l : List Edge} (hwf : WellFormed g) (hb : BalFull g)
    (hr : run (flipOps l) g = some g1) : WellFormed g1 ∧ BalFull g1 := by
  refine ⟨run_wellFormed hwf hr, run_balFull hb hr ?_ ?_⟩
  · intro x; rw [adds_flipOps]; exact count_pairs_getTwin _ x
  · intro x; rw [rems_flipOps]; exact count_pairs_getTwin _ x

/-- C5, counterexample: `selfTwinGraph` satisfies the twin invariant and vertex `0`
is live, but `flip(0)` fails: the old twin it tries to remove from the partner is
the edge it has just replaced. -/
theorem flip_twinInv_counterexample :
    TwinInv selfTwinGraph ∧ (getVertex selfTwinGraph 0).isSome = true ∧
      flip selfTwinGraph 0 = none := by
  decide

/-- C5, amended: on a well-formed graph in which every held edge occurs exactly as
often as its twin occurs in the vertex it points to, `flip(id)` succeeds for every
live `id` that holds no edge to itself, and the result satisfies the twin
invariant (again with matching multiplicities, and well-formed). -/
theorem flip_preserves_twinInv (g : SeqGraph) (id : Nat) (v : Vertex)
    (hwf : WellFormed g) (hbal : Balanced g) (hv : getVertex g id = some v)
    (hns : NoSelfLoop g id) :
    ∃ g1, flip g id = some g1 ∧ TwinInv g1 ∧ Balanced g1 ∧ WellFormed g1 := by
  have hb := balFull_of_balanced hbal
  obtain ⟨g1, hr⟩ := flip_succeeds hwf hb hv hns
  obtain ⟨hwf1, hb1⟩ := flipOps_valid hwf hb hr
  refine ⟨g1, ?_, twinInv_of_balFull hwf1 hb1, balanced_of_balFull hwf1 hb1, hwf1⟩
  rw [flip_eq_run hwf hv]; exact hr

/-- C5, witness: flipping `B` in the chain. -/
theorem flip_preserves_twinInv_witness :
    ∃ g1, flip chainGraph 1 = some g1 ∧ TwinInv g1 ∧ Balanced g1 ∧ WellFormed g1 :=
  flip_preserves_twinInv chainGraph 1
    ⟨1, [⟨1, 0, .ED_ANTISENSE, .EC_SAME⟩, ⟨1, 2, .ED_SENSE, .EC_SAME⟩]⟩
    (by decide) (by decide) rfl (by decide)

/-- C7: for live `u` and `v`, when the number of edges held by `u` whose target is
`v` is zero or at least two, `mergeVertices(u, v)` returns normally and leaves
the graph unchanged. -/
theorem mergeVertices_ambiguity_guard (g : SeqGraph) (u v : Nat) (vu vv : Vertex)
    (hu : getVertex g u = some vu) (hv : getVertex g v = some vv)
    (hcount : vu.getEdges.countP (fun e => decide (e.end_ = v)) = 0 ∨
      2 ≤ vu.getEdges.countP (fun e => decide (e.end_ = v))) :
    mergeVertices g u v = some g := by
  rw [List.countP_eq_length_filter] at hcount
  unfold mergeVertices
  simp only [hu, hv]
  have hf : vu.findEdgesTo v = vu.getEdges.filter (fun e => decide (e.end_ = v)) := rfl
  rw [hf]
  rcases hcount with h0 | h2
  · have : vu.getEdges.filter (fun e => decide (e.end_ = v)) = [] :=
      List.length_eq_zero.mp h0
    simp [this]
  · split
    · rfl
    · split
      · rfl
      · next hgt => exact absurd h2 (by omega)

/-- C7, witness: vertex `0` of `unevenGraph` holds three edges to vertex `1`. -/
theorem mergeVertices_ambiguity_guard_witness :
    mergeVertices unevenGraph 0 1 = some unevenGraph :=
  mergeVertices_ambiguity_guard unevenGraph 0 1
    ⟨0, [⟨0, 1, .ED_SENSE, .EC_SAME⟩, ⟨0, 1, .ED_ANTISENSE, .EC_REVERSE⟩,
      ⟨0, 1, .ED_ANTISENSE, .EC_REVERSE⟩]⟩
    ⟨1, [⟨1, 0, .ED_ANTISENSE, .EC_SAME⟩, ⟨1, 0, .ED_ANTISENSE, .EC_REVERSE⟩]⟩
    rfl rfl (Or.inr (by decide))

/-- C8, counterexample: no result of `simplify()` on the chain has `B` deleted, `A`
and `C` live, two live vertices and `A` holding exactly `A→C`
forward/same-strand. -/
theorem simplify_chain_counterexample :
    ¬ ∃ g1, simplify chainGraph = some g1 ∧ getVertex g1 1 = none ∧
      (getVertex g1 0).isSome = true ∧ (getVertex g1 2).isSome = true ∧
      (stats g1).1 = 2 ∧ edgesAt g1 0 = [⟨0, 2, .ED_SENSE, .EC_SAME⟩] := by
  decide

/-- C8, amended: on the chain, the first merge of `simplify()` (at `A`, forward)
deletes `B` and leaves `A` holding exactly `A→C` forward/same-strand and `C`
holding its twin; the pass then reaches `C`, whose single backward edge merges `A`
into `C`: after one call `A` and `B` are deleted and only `C` is live, holding no
edge (live vertex count 1). -/
theorem simplify_chain :
    simplifyDir 0 chainGraph .ED_SENSE =
        some [some ⟨0, [⟨0, 2, .ED_SENSE, .EC_SAME⟩]⟩, none,
          some ⟨2, [⟨2, 0, .ED_ANTISENSE, .EC_SAME⟩]⟩] ∧
      simplify chainGraph = some [none, none, some ⟨2, []⟩] ∧
      (stats [none, none, some ⟨2, []⟩]).1 = 1 := by
  decide

/-- C9, failing input: `danglingGraph` is built by `addVertex`, `addVertex`,
`addEdge(0, 1, forward, same-strand)`, `removeVertex(1)`; on it `validate()` does
not complete: the lookup of the deleted target fails an assertion of
`getVertex`. -/
theorem validate_aborts_on_dangling_edge :
    ((((addVertex [] ⟨0, []⟩).bind (fun g => addVertex g ⟨1, []⟩)).bind
        (fun g => addEdge g 0 1 .ED_SENSE .EC_SAME)).bind (fun g => removeVertex g 1)) =
        some danglingGraph ∧
      validate danglingGraph = none := by
  decide

theorem validateEdges_eq (g : SeqGraph) (es : List Edge) (out : List Warning)
    (h : ∀ e ∈ es, (getVertex g e.end_).isSome = true) :
    validateEdges g es out =
      some (out ++ (es.filter (twinMissing g)).map (fun e => (e.start, e.end_))) := by
  induction es generalizing out with
  | nil => simp [validateEdges]
  | cons a rest ih =>
    have ha := h a (by simp)
    obtain ⟨w, hw⟩ := Option.isSome_iff_exists.mp ha
    have hrest : ∀ e ∈ rest, (getVertex g e.end_).isSome = true :=
      fun e he => h e (by simp [he])
    simp only [validateEdges, hw]
    by_cases hh : w.hasEdge a.getTwin = true
    · have hm : twinMissing g a = false := by simp [twinMissing, hw, hh]
      simp only [hh, if_true]
      rw [ih out hrest, List.filter_cons_of_neg (by simp [hm])]
    · have hm : twinMissing g a = true := by simp [twinMissing, hw, hh]
      simp only [hh]
      rw [List.filter_cons_of_pos hm]
      simp only [Bool.false_eq_true, if_false]
      rw [ih _ hrest]
      simp

theorem validateLoop_eq (g : SeqGraph) (slots : List (Option Vertex)) (out : List Warning)
    (h : ∀ v, some v ∈ slots → ∀ e ∈ v.getEdges, (getVertex g e.end_).isSome = true) :
    validateLoop g slots out = some (out ++ (slots.filterMap id).flatMap (violationsOf g)) := by
  induction slots generalizing out with
  | nil => simp [validateLoop]
  | cons s rest ih =>
    have hrest : ∀ v, some v ∈ rest → ∀ e ∈ v.getEdges, (getVertex g e.end_).isSome = true :=
      fun v hv => h v (by simp [hv])
    rcases s with _ | v
    · simp only [validateLoop]
      rw [ih out hrest]
      simp
    · simp only [validateLoop]
      rw [validateEdges_eq g v.getEdges out (h v (by simp))]
      simp only []
      rw [ih _ hrest]
      simp [violationsOf, List.flatMap_cons]

theorem mem_slots_iff {g : SeqGraph} {v : Vertex} :
    some v ∈ g ↔ ∃ i, getVertex g i = some v := by
  rw [List.mem_iff_getElem?]
  constructor
  · rintro ⟨i, hi⟩; exact ⟨i, getVertex_eq_some.mpr hi⟩
  · rintro ⟨i, hi⟩; exact ⟨i, getVertex_eq_some.mp hi⟩

theorem twinMissing_eq_false {g : SeqGraph} {e : Edge} :
    twinMissing g e = false ↔ ∃ w ∈ getVertex g e.end_, e.getTwin ∈ w.getEdges := by
  unfold twinMissing
  rcases getVertex g e.end_ with _ | w
  · simp
  · simp [Vertex.hasEdge, Vertex.getEdges]

theorem violations_eq_nil_iff (g : SeqGraph) : violations g = [] ↔ TwinInv g := by
  unfold violations violationsOf TwinInv
  rw [List.flatMap_eq_nil_iff]
  constructor
  · intro h i _ v hv e he
    have hmem : v ∈ g.filterMap id :=
      List.mem_filterMap.mpr ⟨some v, mem_slots_iff.mpr ⟨i, hv⟩, rfl⟩
    have := h v hmem
    rw [List.map_eq_nil_iff, List.filter_eq_nil_iff] at this
    have hf := this e he
    exact twinMissing_eq_false.mp (by simpa using hf)
  · intro h v hv
    obtain ⟨s, hs, hsv⟩ := List.mem_filterMap.mp hv
    simp only [id] at hsv
    subst hsv
    obtain ⟨i, hi⟩ := mem_slots_iff.mp hs
    rw [List.map_eq_nil_iff, List.filter_eq_nil_iff]
    intro e he
    have := twinMissing_eq_false.mpr (h i (getVertex_lt hi) v hi e he)
    simp [this]

/-- C10: on a graph in which all edge targets are live, `validate()` completes,
leaves the graph as it is and reports exactly the edges held by live vertices
whose target does not hold their twin, vertex by vertex in ascending slot order;
the report is empty exactly when the graph satisfies the twin invariant; and a
second run, on the graph left by the first, gives the identical report. -/
theorem validate_report (g : SeqGraph) (hlive : TargetsLive g) :
    validate g = some (g, violations g) ∧
      (violations g = [] ↔ TwinInv g) ∧
      (∀ g1 r, validate g = some (g1, r) → validate g1 = some (g1, r)) := by
  have h1 : validate g = some (g, violations g) := by
    unfold validate
    rw [validateLoop_eq g g []]
    · simp [violations]
    · intro v hv e he
      obtain ⟨i, hi⟩ := mem_slots_iff.mp hv
      exact hlive i (getVertex_lt hi) e (mem_edgesAt.mpr ⟨v, hi, he⟩)
  refine ⟨h1, violations_eq_nil_iff g, ?_⟩
  intro g1 r h
  rw [h1] at h
  simp only [Option.some.injEq, Prod.mk.injEq] at h
  obtain ⟨rfl, rfl⟩ := h
  exact h1

/-- C10, witness: on `dupGraph` with the edge `1→2` of vertex `1` left out, the only
warning is for the edge `2→1`, reported once for each copy that vertex `2` holds. -/
theorem validate_report_witness :
    validate [some ⟨0, [⟨0, 1, .ED_SENSE, .EC_SAME⟩]⟩,
        some ⟨1, [⟨1, 0, .ED_ANTISENSE, .EC_SAME⟩]⟩,
        some ⟨2, [⟨2, 1, .ED_ANTISENSE, .EC_SAME⟩, ⟨2, 1, .ED_ANTISENSE, .EC_SAME⟩]⟩] =
      some ([some ⟨0, [⟨0, 1, .ED_SENSE, .EC_SAME⟩]⟩,
        some ⟨1, [⟨1, 0, .ED_ANTISENSE, .EC_SAME⟩]⟩,
        some ⟨2, [⟨2, 1, .ED_ANTISENSE, .EC_SAME⟩, ⟨2, 1, .ED_ANTISENSE, .EC_SAME⟩]⟩],
        [(2, 1), (2, 1)]) :=
  (validate_report [some ⟨0, [⟨0, 1, .ED_SENSE, .EC_SAME⟩]⟩,
        some ⟨1, [⟨1, 0, .ED_ANTISENSE, .EC_SAME⟩]⟩,
        some ⟨2, [⟨2, 1, .ED_ANTISENSE, .EC_SAME⟩, ⟨2, 1, .ED_ANTISENSE, .EC_SAME⟩]⟩]
    (by decide)).1

/-! ## addVertex, getVertex, addEdge, stats and the visitors -/

/-- C11: `addVertex(v)` succeeds exactly when the identity of `v` equals the number
of slots; on success the slots are the old ones followed by `v`, every earlier
slot unchanged; on failure the assertion is reached with the graph unchanged. -/
theorem addVertex_spec (g : SeqGraph) (v : Vertex) :
    ((addVertex g v).isSome = true ↔ v.getID = g.length) ∧
      (∀ g1, addVertex g v = some g1 →
        g1 = g ++ [some v] ∧ g1.length = g.length + 1 ∧ ∀ i < g.length, g1[i]? = g[i]?) ∧
      addVertexE g v =
        (match addVertex g v with
          | some g1 => .ok g1
          | none => .error g) := by
  unfold addVertex addVertexE
  by_cases h : v.getID = g.length
  · simp only [h, if_true, Option.isSome_some, true_and, and_true]
    intro g1 hg
    simp only [Option.some.injEq] at hg
    subst hg
    refine ⟨rfl, by simp, fun i hi => ?_⟩
    rw [List.getElem?_append]
    simp [hi]
  · simp [h]

/-- C13: `getVertex(id)` fails exactly when `id` is not smaller than the number of
slots or slot `id` is a deleted vertex; otherwise it returns the vertex stored in
slot `id`; on both outcomes the graph is the one it was called with. -/
theorem getVertex_spec (g : SeqGraph) (id : Nat) :
    (getVertex g id = none ↔ g.length ≤ id ∨ g[id]? = some none) ∧
      (∀ v, getVertex g id = some v ↔ g[id]? = some (some v)) ∧
      getVertexE g id =
        (match getVertex g id with
          | some v => .ok (v, g)
          | none => .error g) := by
  refine ⟨?_, fun v => getVertex_eq_some, ?_⟩
  · rw [getVertex_eq_none]
    constructor
    · rintro (h | h)
      · left
        by_contra hc
        have hlt : id < g.length := by omega
        rw [List.getElem?_eq_getElem hlt] at h
        simp at h
      · exact Or.inr h
    · rintro (h | h)
      · exact Or.inl (List.getElem?_eq_none h)
      · exact Or.inr h
  · unfold getVertexE getVertex
    by_cases h : id < g.length
    · simp only [h, if_true]
      rcases g[id]? with _ | s
      · rfl
      · rcases s with _ | w <;> rfl
    · simp [h]

/-- C16: for a live `u`, `addEdge(u, v, dir, comp)` succeeds and appends the edge
from the vertex in slot `u` to `v` to the edge list of `u` (the edge
`(u, v, dir, comp)` when that vertex has identity `u`); the number of slots, every
other slot and hence every other edge list are unchanged: the twin is not
inserted. -/
theorem addEdge_no_mirror (g : SeqGraph) (u v : Nat) (dir : EdgeDir) (comp : EdgeComp)
    (vu : Vertex) (hu : getVertex g u = some vu) :
    ∃ g1, addEdge g u v dir comp = some g1 ∧
      g1.length = g.length ∧
      getVertex g1 u = some ⟨vu.id, vu.edges ++ [⟨vu.getID, v, dir, comp⟩]⟩ ∧
      (vu.getID = u → edgesAt g1 u = edgesAt g u ++ [⟨u, v, dir, comp⟩]) ∧
      (∀ i, i ≠ u → g1[i]? = g[i]?) ∧
      (∀ i, i ≠ u → edgesAt g1 i = edgesAt g i) ∧
      (v ≠ u → ((⟨u, v, dir, comp⟩ : Edge).getTwin ∈ edgesAt g1 v ↔
        (⟨u, v, dir, comp⟩ : Edge).getTwin ∈ edgesAt g v)) := by
  have hlt := getVertex_lt hu
  have hget : ∀ i, getVertex (g.set u (some (vu.addEdgeTo v dir comp))) i =
      if i = u then some (vu.addEdgeTo v dir comp) else getVertex g i :=
    fun i => getVertex_set hlt _ i
  have hed : ∀ i, i ≠ u →
      edgesAt (g.set u (some (vu.addEdgeTo v dir comp))) i = edgesAt g i := by
    intro i hi
    unfold edgesAt
    rw [hget]; simp [hi]
  refine ⟨g.set u (some (vu.addEdgeTo v dir comp)), by simp [addEdge, hu], by simp, ?_, ?_,
    ?_, hed, ?_⟩
  · rw [hget]; simp [Vertex.addEdgeTo, Vertex.addEdge, Vertex.getID]
  · intro hid
    unfold edgesAt
    rw [hget, hu]
    simp [Vertex.addEdgeTo, Vertex.addEdge, Vertex.getEdges]
    exact hid
  · intro i hi
    exact List.getElem?_set_ne (Ne.symm hi)
  · intro hv
    rw [hed v hv]

/-- C16, witness: adding the edge `0→1` backward/same-strand to the chain. -/
theorem addEdge_no_mirror_witness :
    ∃ g1, addEdge chainGraph 0 1 .ED_ANTISENSE .EC_SAME = some g1 ∧
      g1.length = chainGraph.length ∧
      getVertex g1 0 = some ⟨0, [⟨0, 1, .ED_SENSE, .EC_SAME⟩] ++
        [⟨0, 1, .ED_ANTISENSE, .EC_SAME⟩]⟩ ∧
      ((0 : Nat) = 0 → edgesAt g1 0 = edgesAt chainGraph 0 ++ [⟨0, 1, .ED_ANTISENSE, .EC_SAME⟩]) ∧
      (∀ i, i ≠ 0 → g1[i]? = chainGraph[i]?) ∧
      (∀ i, i ≠ 0 → edgesAt g1 i = edgesAt chainGraph i) ∧
      ((1 : Nat) ≠ 0 → ((⟨0, 1, .ED_ANTISENSE, .EC_SAME⟩ : Edge).getTwin ∈ edgesAt g1 1 ↔
        (⟨0, 1, .ED_ANTISENSE, .EC_SAME⟩ : Edge).getTwin ∈ edgesAt chainGraph 1)) :=
  addEdge_no_mirror chainGraph 0 1 .ED_ANTISENSE .EC_SAME
    ⟨0, [⟨0, 1, .ED_SENSE, .EC_SAME⟩]⟩ rfl

/-- C17, counterexample: on `parallelGraph`, two vertices with two parallel edges in
the same direction, the postvisit phase of the Duplicate visitor leaves both
parallel edges in place. -/
theorem duplicate_postvisit_counterexample :
    (edgesAt (SGDuplicateVisitor.postvisit parallelGraph) 0).count
        ⟨0, 1, .ED_SENSE, .EC_SAME⟩ = 2 ∧
      (edgesAt (SGDuplicateVisitor.postvisit parallelGraph) 1).count
        ⟨1, 0, .ED_ANTISENSE, .EC_SAME⟩ = 2 := by
  decide

/-- C17, amended: the previsit and postvisit phases of the Duplicate visitor are
empty: whatever graph the visit phase leaves, the graph after postvisit is that
graph, so a collapse of parallel edges can only be the work of visit. -/
theorem duplicate_postvisit_id (G : Type) (pGraph : G) :
    SGDuplicateVisitor.postvisit pGraph = pGraph ∧
      SGDuplicateVisitor.previsit pGraph = pGraph :=
  ⟨rfl, rfl⟩

theorem wrapInt32_of_bounds {n : Int} (h0 : 0 ≤ n) (h1 : n < 2147483648) : wrapInt32 n = n := by
  unfold wrapInt32
  omega

theorem wrapInt32_add (a b : Int) : wrapInt32 (wrapInt32 a + b) = wrapInt32 (a + b) := by
  unfold wrapInt32
  omega

theorem stats_foldl (slots : List (Option Vertex)) (acc : Int × Int)
    (h1 : wrapInt32 acc.1 = acc.1) (h2 : wrapInt32 acc.2 = acc.2) :
    slots.foldl (fun acc slot =>
      match slot with
      | none => acc
      | some v => (wrapInt32 (acc.1 + 1), wrapInt32 (acc.2 + (v.countEdges : Int)))) acc =
      (wrapInt32 (acc.1 + ((slots.filterMap id).length : Nat)),
        wrapInt32 (acc.2 + (((slots.filterMap id).map Vertex.countEdges).sum : Nat))) := by
  induction slots generalizing acc with
  | nil =>
    simp only [List.foldl_nil, List.filterMap_nil, List.length_nil, List.map_nil, List.sum_nil,
      Nat.cast_zero, Int.add_zero, h1, h2]
  | cons s rest ih =>
    rcases s with _ | v
    · simp only [List.foldl_cons]
      rw [ih acc h1 h2]
      rfl
    · simp only [List.foldl_cons]
      rw [ih _ (by simp only []; unfold wrapInt32; omega) (by simp only []; unfold wrapInt32; omega)]
      have hf : List.filterMap id (some v :: rest) = v :: List.filterMap id rest := rfl
      simp only [hf, List.length_cons, List.map_cons, List.sum_cons, Nat.cast_add, Nat.cast_one,
        wrapInt32_add]
      congr 2 <;> omega

/-- The two numbers of `stats()` for any graph: the number of live vertices and the
number of edges they hold, as `int` values. -/
theorem stats_eq (g : SeqGraph) :
    stats g = (wrapInt32 ((g.filterMap id).length : Nat),
      wrapInt32 (((g.filterMap id).map Vertex.countEdges).sum : Nat)) := by
  unfold stats
  rw [stats_foldl g (0, 0) (by decide) (by decide)]
  simp

/-- C18, counterexample: the live vertices of `hugeGraph` hold `2^31` edges, and the
edge count of `stats()`, an `int`, is `-2^31`. -/
theorem stats_overflow_counterexample :
    ((hugeGraph.filterMap id).map (fun v => v.getEdges.length)).sum = 2147483648 ∧
      (stats hugeGraph).2 = -2147483648 ∧ (stats hugeGraph).1 = 2 := by
  have hsum : ((hugeGraph.filterMap id).map (fun v => v.getEdges.length)).sum = 2147483648 := by
    have hf : hugeGraph.filterMap id =
        [⟨0, List.replicate 2147483648 ⟨0, 1, .ED_SENSE, .EC_SAME⟩⟩, ⟨1, []⟩] := rfl
    rw [hf]
    simp only [List.map_cons, List.map_nil, List.sum_cons, List.sum_nil, Vertex.getEdges,
      List.length_replicate, List.length_nil, Nat.add_zero]
  have hsum2 : ((hugeGraph.filterMap id).map Vertex.countEdges).sum = 2147483648 := hsum
  have hlen : (hugeGraph.filterMap id).length = 2 := rfl
  refine ⟨hsum, ?_, ?_⟩
  · rw [stats_eq, hsum2]
    decide
  · rw [stats_eq, hlen]
    decide

/-- C18, amended: for a graph with fewer than `2^31` live vertices holding fewer
than `2^31` edges in all, the vertex count of `stats()` is the number of slots that
are not deleted, and its edge count is the sum, over the live vertices, of the
number of edges each holds. -/
theorem stats_spec (g : SeqGraph)
    (hverts : (g.filterMap id).length < 2147483648)
    (hedges : ((g.filterMap id).map (fun v => v.getEdges.length)).sum < 2147483648) :
    stats g = ((((g.filterMap id).length : Nat) : Int),
      ((((g.filterMap id).map (fun v => v.getEdges.length)).sum : Nat) : Int)) := by
  have hedges2 : ((g.filterMap id).map Vertex.countEdges).sum < 2147483648 := hedges
  have hsame : ((g.filterMap id).map (fun v => v.getEdges.length)).sum =
      ((g.filterMap id).map Vertex.countEdges).sum := rfl
  rw [stats_eq, hsame, wrapInt32_of_bounds (by omega) (by omega),
    wrapInt32_of_bounds (by omega) (by omega)]

/-- C18, witness: `danglingGraph` has one live vertex, one deleted slot and one
edge. -/
theorem stats_spec_witness : stats danglingGraph = (1, 1) :=
  stats_spec danglingGraph (by decide) (by decide)

/-- C19: for every edge `e` and every edge `x` whose direction is opposite to that
of `twin(e)`, once `x` is flipped when `e` is reverse-strand (and left alone
otherwise) its direction is that of `e`; so the direction check in an iteration of
`mergeAlongEdge` passes and the iteration goes on to re-anchor the edge. -/
theorem merge_direction_check (e x : Edge) (hx : x.dir = e.getTwin.dir.not) :
    (if e.comp = .EC_REVERSE then x.flip else x).dir = e.dir ∧
      ∀ (g : SeqGraph) (pV1 : Nat),
        mergeStep pV1 e (decide (e.comp = .EC_REVERSE)) g x =
          match getVertex g pV1 with
          | none => none
          | some v1 =>
            match ptrAddEdge g pV1 ⟨v1.getID, x.end_, e.dir,
                (if e.comp = .EC_REVERSE then x.flip else x).comp⟩ with
            | none => none
            | some g1 =>
              ptrAddEdge g1 x.end_ (⟨v1.getID, x.end_, e.dir,
                (if e.comp = .EC_REVERSE then x.flip else x).comp⟩ : Edge).getTwin := by
  have h := merge_dir_ok e x hx
  have h1 : (if e.comp = .EC_REVERSE then x.flip else x).dir = e.dir := by
    by_cases hc : e.comp = .EC_REVERSE <;> simp [hc] at h ⊢ <;> exact h
  refine ⟨h1, fun g pV1 => ?_⟩
  unfold mergeStep
  by_cases hc : e.comp = .EC_REVERSE
  · simp only [hc, decide_True, if_true] at h1 ⊢
    simp only [h1, if_true, Edge.getTwin_start, Edge.flip_end]
  · simp only [hc, decide_False, if_false] at h1 ⊢
    simp [h1, Edge.getTwin_start]

/-- C19, witness: a forward/reverse-strand edge and a collected backward edge. -/
theorem merge_direction_check_witness :
    (if (⟨0, 1, .ED_SENSE, .EC_REVERSE⟩ : Edge).comp = .EC_REVERSE
        then (⟨1, 2, .ED_ANTISENSE, .EC_SAME⟩ : Edge).flip
        else ⟨1, 2, .ED_ANTISENSE, .EC_SAME⟩).dir = .ED_SENSE :=
  (merge_direction_check ⟨0, 1, .ED_SENSE, .EC_REVERSE⟩ ⟨1, 2, .ED_ANTISENSE, .EC_SAME⟩
    (by decide)).1

/-! ## Slots are never revived -/

theorem Keeps.self (g : SeqGraph) : Keeps g g := ⟨rfl, fun _ h => h⟩

theorem Keeps.andThen {g g1 g2 : SeqGraph} (h1 : Keeps g g1) (h2 : Keeps g1 g2) : Keeps g g2 :=
  ⟨h2.1.trans h1.1, fun i h => h2.2 i (h1.2 i h)⟩

theorem Same.keeps {g g1 : SeqGraph} (h : Same g g1) : Keeps g g1 := by
  refine ⟨h.1, fun i hi => ?_⟩
  have := h.2 i
  rw [hi] at this
  rcases hv : getVertex g1 i with _ | w
  · rfl
  · rw [hv] at this; simp at this

theorem tombstone_iff {g : SeqGraph} {i : Nat} :
    g[i]? = some none ↔ i < g.length ∧ getVertex g i = none := by
  constructor
  · intro h
    have hlt : i < g.length := by
      by_contra hc
      rw [List.getElem?_eq_none (by omega)] at h
      simp at h
    exact ⟨hlt, getVertex_eq_none.mpr (Or.inr h)⟩
  · rintro ⟨hlt, h⟩
    rcases getVertex_eq_none.mp h with h1 | h1
    · rw [List.getElem?_eq_getElem hlt] at h1; simp at h1
    · exact h1

theorem Keeps.tombstone {g g1 : SeqGraph} (h : Keeps g g1) {i : Nat}
    (hi : g[i]? = some none) : g1[i]? = some none := by
  obtain ⟨hlt, hd⟩ := tombstone_iff.mp hi
  exact tombstone_iff.mpr ⟨by rw [h.1]; exact hlt, h.2 i hd⟩

theorem ptrAddEdge_same {g g1 : SeqGraph} {p : Nat} {e : Edge}
    (h : ptrAddEdge g p e = some g1) : Same g g1 := by
  rcases hv : getVertex g p with _ | v
  · simp [ptrAddEdge, hv] at h
  · rw [ptrAddEdge_eq e hv] at h
    simp at h; subst h
    exact same_set hv rfl

theorem ptrRemoveEdge_same {g g1 : SeqGraph} {p : Nat} {e : Edge}
    (h : ptrRemoveEdge g p e = some g1) : Same g g1 := by
  obtain ⟨v, hv, _, rfl⟩ := ptrRemoveEdge_eq_some h
  exact same_set hv rfl

theorem mergeStep_same {g g1 : SeqGraph} {p : Nat} {edge it : Edge} {f : Bool}
    (h : mergeStep p edge f g it = some g1) : Same g g1 := by
  by_cases hd : (if f then it.flip else it).dir = edge.dir
  · simp only [mergeStep, hd, if_true] at h
    rcases hv : getVertex g p with _ | v1
    · rw [hv] at h; simp at h
    · rw [hv] at h
      simp only [] at h
      split at h
      · simp at h
      · next g2 h2 => exact (ptrAddEdge_same h2).trans (ptrAddEdge_same h)
  · simp [mergeStep, hd] at h

theorem mergeLoop_same {g g1 : SeqGraph} {p : Nat} {edge : Edge} {f : Bool} {l : List Edge}
    (h : mergeLoop p edge f l g = some g1) : Same g g1 := by
  induction l generalizing g with
  | nil => simp [mergeLoop] at h; subst h; exact Same.refl g
  | cons a rest ih =>
    simp only [mergeLoop] at h
    rcases hs : mergeStep p edge f g a with _ | g2
    · rw [hs] at h; simp at h
    · rw [hs] at h
      exact (mergeStep_same hs).trans (ih h)

theorem removeVertex_keeps {g g1 : SeqGraph} {id : Nat} (h : removeVertex g id = some g1) :
    Keeps g g1 ∧ getVertex g1 id = none := by
  obtain ⟨v, g0, hv, hr, rfl⟩ := removeVertex_eq_some h
  have hsame := run_same hr
  have hlt : id < g0.length := by rw [hsame.1]; exact getVertex_lt hv
  refine ⟨⟨by simp [hsame.1], fun i hi => ?_⟩, ?_⟩
  · rw [getVertex_set hlt]
    by_cases hid : i = id
    · simp [hid]
    · simp only [hid, if_false]; exact hsame.keeps.2 i hi
  · rw [getVertex_set hlt]; simp

theorem mergeAlongEdge_keeps {g g1 : SeqGraph} {p1 p2 : Nat} {edge : Edge}
    (h : mergeAlongEdge g p1 p2 edge = some g1) : Keeps g g1 := by
  unfold mergeAlongEdge at h
  simp only [] at h
  rcases hv : getVertex g p2 with _ | v2
  · rw [hv] at h; simp at h
  · rw [hv] at h
    simp only [] at h
    split at h
    · rcases hl : mergeLoop p1 edge (decide (edge.comp = .EC_REVERSE))
        (v2.getEdgesDir edge.getTwin.dir.not) g with _ | ga
      · rw [hl] at h; simp at h
      · rw [hl] at h
        simp only [] at h
        rcases h2 : ptrRemoveEdge ga p1 edge with _ | gb
        · rw [h2] at h; simp at h
        · rw [h2] at h
          simp only [] at h
          rcases h3 : ptrRemoveEdge gb p2 edge.getTwin with _ | gc
          · rw [h3] at h; simp at h
          · rw [h3] at h
            simp only [] at h
            have hk : Keeps g gc :=
              (((mergeLoop_same hl).trans (ptrRemoveEdge_same h2)).trans
                (ptrRemoveEdge_same h3)).keeps
            rcases h4 : getVertex gc p2 with _ | v2c
            · rw [h4] at h; simp at h
            · rw [h4] at h
              simp only [] at h
              split at h
              · exact hk.andThen (removeVertex_keeps h).1
              · simp at h; subst h; exact hk
    · simp at h

theorem mergeVertices_keeps {g g1 : SeqGraph} {id1 id2 : Nat}
    (h : mergeVertices g id1 id2 = some g1) : Keeps g g1 := by
  unfold mergeVertices at h
  rcases h1 : getVertex g id1 with _ | v1
  · rw [h1] at h; simp at h
  · rw [h1] at h
    simp only [] at h
    rcases h2 : getVertex g id2 with _ | v2
    · rw [h2] at h; simp at h
    · rw [h2] at h
      simp only [] at h
      split at h
      · simp at h; subst h; exact Keeps.self g
      · split at h
        · simp at h; subst h; exact Keeps.self g
        · split at h
          · simp at h
          · exact mergeAlongEdge_keeps h

theorem simplifyDir_keeps {g g1 : SeqGraph} {p : Nat} {dir : EdgeDir}
    (h : simplifyDir p g dir = some g1) : Keeps g g1 := by
  unfold simplifyDir at h
  rcases hv : getVertex g p with _ | v
  · rw [hv] at h; simp at h
  · rw [hv] at h
    simp only [] at h
    split at h
    · next single _ =>
      rcases ht : getVertex g single.end_ with _ | w
      · rw [ht] at h; simp at h
      · rw [ht] at h
        exact mergeAlongEdge_keeps h
    · simp at h; subst h; exact Keeps.self g

theorem simplifyDirs_keeps {g g1 : SeqGraph} {p : Nat} {dirs : List EdgeDir}
    (h : simplifyDirs p dirs g = some g1) : Keeps g g1 := by
  induction dirs generalizing g with
  | nil => simp [simplifyDirs] at h; subst h; exact Keeps.self g
  | cons d rest ih =>
    simp only [simplifyDirs] at h
    rcases hs : simplifyDir p g d with _ | g2
    · rw [hs] at h; simp at h
    · rw [hs] at h
      exact (simplifyDir_keeps hs).andThen (ih h)

theorem simplifyLoop_keeps {g g1 : SeqGraph} {ps : List Nat}
    (h : simplifyLoop ps g = some g1) : Keeps g g1 := by
  induction ps generalizing g with
  | nil => simp [simplifyLoop] at h; subst h; exact Keeps.self g
  | cons p rest ih =>
    simp only [simplifyLoop] at h
    split at h
    · rcases hs : simplifyDirs p EDGE_DIRECTIONS g with _ | g2
      · rw [hs] at h; simp at h
      · rw [hs] at h
        exact (simplifyDirs_keeps hs).andThen (ih h)
    · exact ih h

theorem simplify_keeps {g g1 : SeqGraph} (h : simplify g = some g1) : Keeps g g1 :=
  simplifyLoop_keeps h

theorem flipStep_same {g g1 : SeqGraph} {p : Nat} {it : Edge}
    (h : flipStep p g it = some g1) : Same g g1 := by
  unfold flipStep at h
  simp only [] at h
  rcases h1 : ptrRemoveEdge g p it with _ | ga
  · rw [h1] at h; simp at h
  · rw [h1] at h
    simp only [] at h
    rcases h2 : ptrAddEdge ga p it.flip with _ | gb
    · rw [h2] at h; simp at h
    · rw [h2] at h
      simp only [] at h
      rcases h3 : ptrRemoveEdge gb it.getTwin.start it.getTwin with _ | gc
      · rw [h3] at h; simp at h
      · rw [h3] at h
        exact (((ptrRemoveEdge_same h1).trans (ptrAddEdge_same h2)).trans
          (ptrRemoveEdge_same h3)).trans (ptrAddEdge_same h)

theorem flipLoop_same {g g1 : SeqGraph} {p : Nat} {l : List Edge}
    (h : flipLoop p l g = some g1) : Same g g1 := by
  induction l generalizing g with
  | nil => simp [flipLoop] at h; subst h; exact Same.refl g
  | cons a rest ih =>
    simp only [flipLoop] at h
    rcases hs : flipStep p g a with _ | g2
    · rw [hs] at h; simp at h
    · rw [hs] at h
      exact (flipStep_same hs).trans (ih h)

theorem flip_same {g g1 : SeqGraph} {id : Nat} (h : flip g id = some g1) : Same g g1 := by
  unfold flip at h
  rcases hv : getVertex g id with _ | v
  · rw [hv] at h; simp at h
  · rw [hv] at h
    exact flipLoop_same h

theorem addEdge_same {g g1 : SeqGraph} {id1 id2 : Nat} {dir : EdgeDir} {comp : EdgeComp}
    (h : addEdge g id1 id2 dir comp = some g1) : Same g g1 := by
  unfold addEdge at h
  rcases hv : getVertex g id1 with _ | v
  · rw [hv] at h; simp at h
  · rw [hv] at h
    simp at h; subst h
    exact same_set hv rfl

theorem addVertex_eq_some {g g1 : SeqGraph} {v : Vertex} (h : addVertex g v = some g1) :
    v.getID = g.length ∧ g1 = g ++ [some v] := by
  unfold addVertex at h
  split at h
  · next hid => simp at h; exact ⟨hid, h.symm⟩
  · simp at h

/-- Every successful call keeps the deleted slots deleted and does not shrink the
container. -/
theorem Call.exec_tombstone {g g1 : SeqGraph} {c : Call} (h : c.exec g = some g1) :
    g.length ≤ g1.length ∧ ∀ i : Nat, g[i]? = some none → g1[i]? = some none := by
  have hk : ∀ {g2 : SeqGraph}, Keeps g g2 →
      g.length ≤ g2.length ∧ ∀ i : Nat, g[i]? = some none → g2[i]? = some none :=
    fun hk => ⟨by rw [hk.1], fun i hi => hk.tombstone hi⟩
  cases c with
  | addVertex pVert =>
    simp only [Call.exec] at h
    obtain ⟨_, rfl⟩ := addVertex_eq_some h
    refine ⟨by simp, fun i hi => ?_⟩
    rw [List.getElem?_append]
    simp [(tombstone_iff.mp hi).1, hi]
  | removeVertex id => exact hk (removeVertex_keeps h).1
  | addEdge id1 id2 dir comp => exact hk (addEdge_same h).keeps
  | removeEdge id1 id2 dir comp => exact hk (ptrRemoveEdge_same h).keeps
  | mergeVertices id1 id2 => exact hk (mergeVertices_keeps h)
  | simplify => exact hk (simplify_keeps h)
  | flip id => exact hk (flip_same h).keeps

theorem execAll_tombstone {calls : List Call} {g g1 : SeqGraph}
    (h : execAll calls g = some g1) :
    g.length ≤ g1.length ∧ ∀ i : Nat, g[i]? = some none → g1[i]? = some none := by
  induction calls generalizing g with
  | nil => simp [execAll] at h; subst h; exact ⟨Nat.le_refl _, fun _ hi => hi⟩
  | cons c rest ih =>
    simp only [execAll] at h
    rcases hc : c.exec g with _ | g2
    · rw [hc] at h; simp at h
    · rw [hc] at h
      obtain ⟨h1, h2⟩ := Call.exec_tombstone hc
      obtain ⟨h3, h4⟩ := ih h
      exact ⟨by omega, fun i hi => h4 i (h2 i hi)⟩

/-- C12: after a successful `removeVertex(id)` the number of slots is unchanged and
slot `id` is a deleted slot; after any further sequence of `addVertex`,
`removeVertex`, `addEdge`, `removeEdge`, `mergeVertices`, `simplify` and `flip`
calls that runs to its end, slot `id` is still a deleted slot, `getVertex(id)`
fails, and the number of slots has not decreased. -/
theorem identities_never_reused (g g1 : SeqGraph) (id : Nat)
    (h : removeVertex g id = some g1) :
    g1.length = g.length ∧ g1[id]? = some none ∧
      ∀ (calls : List Call) (g2 : SeqGraph), execAll calls g1 = some g2 →
        g2[id]? = some none ∧ getVertex g2 id = none ∧ g1.length ≤ g2.length := by
  obtain ⟨hk, hdead⟩ := removeVertex_keeps h
  obtain ⟨v, _, hv, _, _⟩ := removeVertex_eq_some h
  have htomb : g1[id]? = some none :=
    tombstone_iff.mpr ⟨by rw [hk.1]; exact getVertex_lt hv, hdead⟩
  refine ⟨hk.1, htomb, fun calls g2 h2 => ?_⟩
  obtain ⟨hlen, hkeep⟩ := execAll_tombstone h2
  have := hkeep id htomb
  exact ⟨this, (tombstone_iff.mp this).2, hlen⟩

/-- C12, witness: removing `B` from the chain. -/
theorem identities_never_reused_witness :
    ([some ⟨0, []⟩, none, some ⟨2, []⟩] : SeqGraph).length = chainGraph.length ∧
      ([some ⟨0, []⟩, none, some ⟨2, []⟩] : SeqGraph)[1]? = some none ∧
      ∀ (calls : List Call) (g2 : SeqGraph),
        execAll calls [some ⟨0, []⟩, none, some ⟨2, []⟩] = some g2 →
        g2[1]? = some none ∧ getVertex g2 1 = none ∧
          ([some ⟨0, []⟩, none, some ⟨2, []⟩] : SeqGraph).length ≤ g2.length :=
  identities_never_reused chainGraph _ 1 rfl

/-! ## The calls with the graph kept on failure agree with the plain ones -/

theorem ptrAddEdgeE_toOption (g : SeqGraph) (p : Nat) (e : Edge) :
    (ptrAddEdgeE g p e).toOption = ptrAddEdge g p e := by
  unfold ptrAddEdgeE ptrAddEdge
  rcases getVertex g p with _ | v <;> rfl

theorem ptrRemoveEdgeE_toOption (g : SeqGraph) (p : Nat) (e : Edge) :
    (ptrRemoveEdgeE g p e).toOption = ptrRemoveEdge g p e := by
  unfold ptrRemoveEdgeE ptrRemoveEdge
  rcases getVertex g p with _ | v
  · rfl
  · simp only []
    rcases v.removeEdge e with _ | v1 <;> rfl

theorem removeTwinsE_toOption (l : List Edge) (g : SeqGraph) :
    (removeTwinsE l g).toOption = removeTwins l g := by
  induction l generalizing g with
  | nil => rfl
  | cons a rest ih =>
    simp only [removeTwinsE, removeTwins]
    rw [← ptrRemoveEdgeE_toOption]
    rcases ptrRemoveEdgeE g a.getTwin.start a.getTwin with g1 | g1
    · rfl
    · exact ih g1

theorem removeVertexE_toOption (g : SeqGraph) (id : Nat) :
    (removeVertexE g id).toOption = removeVertex g id := by
  unfold removeVertexE removeVertex
  split
  · rcases getVertex g id with _ | v
    · rfl
    · simp only []
      rw [← removeTwinsE_toOption]
      rcases removeTwinsE v.getEdges g with g1 | g1 <;> rfl
  · rfl

theorem mergeStepE_toOption (p : Nat) (edge : Edge) (f : Bool) (g : SeqGraph) (it : Edge) :
    (mergeStepE p edge f g it).toOption = mergeStep p edge f g it := by
  by_cases hd : (if f then it.flip else it).dir = edge.dir
  · simp only [mergeStepE, mergeStep, hd, if_true]
    rcases getVertex g p with _ | v1
    · rfl
    · simp only []
      rw [← ptrAddEdgeE_toOption]
      rcases ptrAddEdgeE g p _ with g1 | g1
      · rfl
      · exact ptrAddEdgeE_toOption _ _ _
  · simp only [mergeStepE, mergeStep, hd, if_false]
    rfl

theorem mergeLoopE_toOption (p : Nat) (edge : Edge) (f : Bool) (l : List Edge)
    (g : SeqGraph) : (mergeLoopE p edge f l g).toOption = mergeLoop p edge f l g := by
  induction l generalizing g with
  | nil => rfl
  | cons a rest ih =>
    simp only [mergeLoopE, mergeLoop]
    rw [← mergeStepE_toOption]
    rcases mergeStepE p edge f g a with g1 | g1
    · rfl
    · exact ih g1

/-- Forgetting the graph kept on failure gives `mergeAlongEdge`. -/
theorem mergeAlongEdgeE_toOption (g : SeqGraph) (p1 p2 : Nat) (edge : Edge) :
    (mergeAlongEdgeE g p1 p2 edge).toOption = mergeAlongEdge g p1 p2 edge := by
  unfold mergeAlongEdgeE mergeAlongEdge
  simp only []
  rcases getVertex g p2 with _ | v2
  · rfl
  · simp only []
    split
    · rw [← mergeLoopE_toOption]
      rcases mergeLoopE p1 edge _ _ g with g1 | g1
      · rfl
      · simp only [Except.toOption]
        rw [← ptrRemoveEdgeE_toOption]
        rcases ptrRemoveEdgeE g1 p1 edge with g2 | g2
        · rfl
        · simp only [Except.toOption]
          rw [← ptrRemoveEdgeE_toOption]
          rcases ptrRemoveEdgeE g2 p2 edge.getTwin with g3 | g3
          · rfl
          · simp only [Except.toOption]
            rcases getVertex g3 p2 with _ | v2c
            · rfl
            · simp only []
              by_cases hc : v2c.countEdgesDir edge.getTwin.dir = 0
              · simp only [hc, if_true]
                exact removeVertexE_toOption _ _
              · simp only [hc, if_false]
    · rfl

/-- C15: when the live vertex `v2` does not hold `twin(e)`, `mergeAlongEdge(v1, v2, e)`
fails, and the failed assertion is reached with the graph it was called with: no
edge has been added or removed. -/
theorem merge_missing_twin (g : SeqGraph) (p1 p2 : Nat) (e : Edge) (v2 : Vertex)
    (h2 : getVertex g p2 = some v2) (hno : e.getTwin ∉ v2.getEdges) :
    mergeAlongEdge g p1 p2 e = none ∧ mergeAlongEdgeE g p1 p2 e = .error g := by
  have hh : v2.hasEdge e.getTwin = false := by
    simp only [Vertex.hasEdge, decide_eq_false_iff_not]
    exact hno
  constructor
  · simp [mergeAlongEdge, h2, hh]
  · simp [mergeAlongEdgeE, h2, hh]

/-- C15, witness: merging along `1→0` in `oneWayGraph`, where `0` lacks the twin. -/
theorem merge_missing_twin_witness :
    mergeAlongEdge oneWayGraph 1 0 ⟨1, 0, .ED_SENSE, .EC_SAME⟩ = none ∧
      mergeAlongEdgeE oneWayGraph 1 0 ⟨1, 0, .ED_SENSE, .EC_SAME⟩ = .error oneWayGraph :=
  merge_missing_twin oneWayGraph 1 0 ⟨1, 0, .ED_SENSE, .EC_SAME⟩ ⟨0, []⟩ rfl (by decide)

/-! ## The absorption rule of mergeAlongEdge -/

theorem effects_append (i : Nat) (a b : List Op) (l : List Edge) :
    effects i (a ++ b) l = effects i b (effects i a l) := by
  induction a generalizing l with
  | nil => rfl
  | cons op rest ih =>
    rw [List.cons_append]
    simp only [effects]
    exact ih _

theorem effects_mergeOps_other (p1 i : Nat) (f : Bool) (trans l : List Edge) (hne : p1 ≠ i)
    (h : ∀ x ∈ trans, x.end_ ≠ i) : effects i (mergeOps p1 f trans) l = l := by
  induction trans generalizing l with
  | nil => rfl
  | cons a rest ih =>
    have ha := h a (by simp)
    simp only [mergeOps, effects, Op.effect, moved_start, hne, if_false, Edge.getTwin_start,
      moved_end, ha]
    exact ih l (fun x hx => h x (by simp [hx]))

theorem filter_erase_of_true {p : Edge → Bool} {a : Edge} (l : List Edge) (h : p a = true) :
    (l.erase a).filter p = (l.filter p).erase a := by
  induction l with
  | nil => rfl
  | cons b rest ih =>
    by_cases hb : b = a
    · subst hb
      rw [List.erase_cons_head, List.filter_cons_of_pos h, List.erase_cons_head]
    · rw [List.erase_cons_tail (by simpa using hb)]
      by_cases hp : p b = true
      · rw [List.filter_cons_of_pos hp, List.filter_cons_of_pos hp,
          List.erase_cons_tail (by simpa using hb), ih]
      · rw [List.filter_cons_of_neg hp, List.filter_cons_of_neg hp, ih]

theorem erase_eq_nil_iff {l : List Edge} {a : Edge} (h : a ∈ l) : l.erase a = [] ↔ l = [a] := by
  constructor
  · intro he
    have hlen := List.length_erase_of_mem h
    rw [he] at hlen
    simp only [List.length_nil] at hlen
    match l, h, hlen with
    | [b], hb, _ => simp at hb; rw [hb]
    | b :: c :: r, _, hl => simp at hl
  · intro he
    rw [he, List.erase_cons_head]

/-- C14, counterexample: in `loopAtTargetGraph` the merge along `0→1` succeeds with
`0 ≠ 1`, and vertex `1`, which held a second backward edge, stays live; but it
still holds `twin(e)`, which its previous edges minus `twin(e)` do not contain. -/
theorem merge_absorption_counterexample :
    ∃ g1, mergeAlongEdge loopAtTargetGraph 0 1 ⟨0, 1, .ED_SENSE, .EC_SAME⟩ = some g1 ∧
      (getVertex g1 1).isSome = true ∧
      (⟨0, 1, .ED_SENSE, .EC_SAME⟩ : Edge).getTwin ∈ edgesAt g1 1 ∧
      (⟨0, 1, .ED_SENSE, .EC_SAME⟩ : Edge).getTwin ∉
        (edgesAt loopAtTargetGraph 1).erase (⟨0, 1, .ED_SENSE, .EC_SAME⟩ : Edge).getTwin := by
  decide

/-- C14, amended: on a well-formed graph, let `mergeAlongEdge(v1, v2, e)` succeed for
live `v1`, `v2` and an edge `e` held by `v1` and pointing to `v2`, where `v2`
holds no edge to itself (so `v1` differs from `v2`). Then `v2` is deleted, its slot
becoming a deleted slot, if and only if `twin(e)` was the only edge `v2` held in
the direction of `twin(e)`; otherwise `v2` stays live and its edge list is the
previous one with one occurrence of `twin(e)` removed. -/
theorem merge_absorption (g g1 : SeqGraph) (p1 p2 : Nat) (e : Edge) (v1 v2 : Vertex)
    (hwf : WellFormed g)
    (h1 : getVertex g p1 = some v1) (h2 : getVertex g p2 = some v2)
    (hmem : e ∈ v1.getEdges) (hend : e.end_ = p2) (hns : NoSelfLoop g p2)
    (hm : mergeAlongEdge g p1 p2 e = some g1) :
    p1 ≠ p2 ∧
      (g1[p2]? = some none ↔ v2.getEdgesDir e.getTwin.dir = [e.getTwin]) ∧
      (v2.getEdgesDir e.getTwin.dir ≠ [e.getTwin] →
        ∃ w, getVertex g1 p2 = some w ∧ w.getEdges = v2.getEdges.erase e.getTwin) := by
  have he1 : e ∈ edgesAt g p1 := mem_edgesAt.mpr ⟨v1, h1, hmem⟩
  have hst : e.start = p1 := hwf.start_eq he1
  have hne : p1 ≠ p2 := by
    intro hh
    rw [hh] at he1
    exact hns e he1 hend
  obtain ⟨g3, v2c, hr, hv2c, hcase⟩ := mergeAlongEdge_eq_some hwf h1 h2 hmem hend hm
  have htrans : ∀ x ∈ v2.getEdgesDir e.getTwin.dir.not, x.end_ ≠ p2 := by
    intro x hx
    simp only [Vertex.getEdgesDir, List.mem_filter] at hx
    exact hns x (mem_edgesAt.mpr ⟨v2, h2, hx.1⟩)
  -- the edge list of `v2` before the deletion check
  have hed : v2c.getEdges = v2.getEdges.erase e.getTwin := by
    have := run_edgesAt hr p2
    rw [edgesAt_of_getVertex hv2c, edgesAt_of_getVertex h2] at this
    rw [this]
    unfold mergeAllOps
    rw [effects_append, effects_mergeOps_other p1 p2 _ _ _ hne htrans]
    simp [effects, Op.effect, hst, hne, hend, Edge.getTwin_start]
  have htw : e.getTwin ∈ v2.getEdgesDir e.getTwin.dir := by
    have hmm := hm
    unfold mergeAlongEdge at hmm
    simp only [h2] at hmm
    split at hmm
    · next hh =>
      simp only [Vertex.getEdgesDir, List.mem_filter]
      exact ⟨by simpa [Vertex.hasEdge] using hh, by simp⟩
    · simp at hmm
  have hcount : v2c.countEdgesDir e.getTwin.dir = 0 ↔
      v2.getEdgesDir e.getTwin.dir = [e.getTwin] := by
    unfold Vertex.countEdgesDir
    rw [List.length_eq_zero]
    have : v2c.getEdgesDir e.getTwin.dir = (v2.getEdgesDir e.getTwin.dir).erase e.getTwin := by
      unfold Vertex.getEdgesDir
      have hed1 : v2c.edges = v2.edges.erase e.getTwin := hed
      rw [hed1]
      exact filter_erase_of_true _ (by simp)
    rw [this]
    exact erase_eq_nil_iff htw
  have hlen : p2 < g3.length := getVertex_lt hv2c
  refine ⟨hne, ?_, ?_⟩
  · rcases hcase with ⟨hc, hrv⟩ | ⟨hc, rfl⟩
    · obtain ⟨hk, hdead⟩ := removeVertex_keeps hrv
      have : g1[p2]? = some none := tombstone_iff.mpr ⟨by rw [hk.1]; exact hlen, hdead⟩
      exact ⟨fun _ => hcount.mp hc, fun _ => this⟩
    · constructor
      · intro ht
        rw [(tombstone_iff.mp ht).2] at hv2c
        simp at hv2c
      · intro hh
        exact absurd (hcount.mpr hh) hc
  · intro hnot
    rcases hcase with ⟨hc, _⟩ | ⟨_, rfl⟩
    · exact absurd (hcount.mp hc) hnot
    · exact ⟨v2c, hv2c, hed⟩

/-- C14, witness: merging `A` and `B` of the chain along `A→B` deletes `B`. -/
theorem merge_absorption_witness :
    (0 : Nat) ≠ 1 ∧
      (([some ⟨0, [⟨0, 2, .ED_SENSE, .EC_SAME⟩]⟩, none,
          some ⟨2, [⟨2, 0, .ED_ANTISENSE, .EC_SAME⟩]⟩] : SeqGraph)[1]? = some none ↔
        (⟨1, [⟨1, 0, .ED_ANTISENSE, .EC_SAME⟩, ⟨1, 2, .ED_SENSE, .EC_SAME⟩]⟩ : Vertex).getEdgesDir
            (⟨0, 1, .ED_SENSE, .EC_SAME⟩ : Edge).getTwin.dir =
          [(⟨0, 1, .ED_SENSE, .EC_SAME⟩ : Edge).getTwin]) ∧
      ((⟨1, [⟨1, 0, .ED_ANTISENSE, .EC_SAME⟩, ⟨1, 2, .ED_SENSE, .EC_SAME⟩]⟩ : Vertex).getEdgesDir
            (⟨0, 1, .ED_SENSE, .EC_SAME⟩ : Edge).getTwin.dir ≠
          [(⟨0, 1, .ED_SENSE, .EC_SAME⟩ : Edge).getTwin] →
        ∃ w, getVertex [some ⟨0, [⟨0, 2, .ED_SENSE, .EC_SAME⟩]⟩, none,
            some ⟨2, [⟨2, 0, .ED_ANTISENSE, .EC_SAME⟩]⟩] 1 = some w ∧
          w.getEdges =
            (⟨1, [⟨1, 0, .ED_ANTISENSE, .EC_SAME⟩, ⟨1, 2, .ED_SENSE, .EC_SAME⟩]⟩ :
              Vertex).getEdges.erase (⟨0, 1, .ED_SENSE, .EC_SAME⟩ : Edge).getTwin) :=
  merge_absorption chainGraph _ 0 1 ⟨0, 1, .ED_SENSE, .EC_SAME⟩
    ⟨0, [⟨0, 1, .ED_SENSE, .EC_SAME⟩]⟩
    ⟨1, [⟨1, 0, .ED_ANTISENSE, .EC_SAME⟩, ⟨1, 2, .ED_SENSE, .EC_SAME⟩]⟩
    (by decide) rfl rfl (by decide) rfl (by decide) rfl

/-! ## simplify on well-formed input -/

theorem Edge.getTwin_eq_self_iff (e : Edge) :
    e.getTwin = e ↔ e.start = e.end_ ∧ e.comp = .EC_REVERSE := by
  rcases e with ⟨s, t, d, c⟩
  cases c <;> cases d <;> simp [Edge.getTwin, EdgeDir.not] <;> omega

/-- On a well-formed graph with matching multiplicities, `mergeAlongEdge` along an
edge held by `p1` that is not its own twin does not fail. -/
theorem mergeAlongEdge_succeeds {g : SeqGraph} {p1 : Nat} {e : Edge} {v1 : Vertex}
    (hwf : WellFormed g) (hb : BalFull g) (h1 : getVertex g p1 = some v1)
    (hmem : e ∈ v1.getEdges) (hnt : e.getTwin ≠ e) :
    ∃ g1, mergeAlongEdge g p1 e.end_ e = some g1 := by
  have hti := twinInv_of_balFull hwf hb
  have he1 : e ∈ edgesAt g p1 := mem_edgesAt.mpr ⟨v1, h1, hmem⟩
  have hs : e.start = p1 := hwf.start_eq he1
  obtain ⟨v2, hv2, htw⟩ := hti p1 (getVertex_lt h1) v1 h1 e hmem
  have h2 : getVertex g e.end_ = some v2 := hv2
  rw [mergeAlongEdge_eq h1 (hwf.id_eq h1) h2 hs rfl]
  have hh : v2.hasEdge e.getTwin = true := by simpa [Vertex.hasEdge] using htw
  simp only [hh, if_true]
  have hrun : ∃ g3, run (mergeAllOps p1 e (v2.getEdgesDir e.getTwin.dir.not)) g = some g3 := by
    apply run_succeeds
    · intro a ha
      rw [adds_mergeAllOps, mem_pairs] at ha
      rcases ha with ha | ha
      · obtain ⟨x, _, rfl⟩ := List.mem_map.mp ha
        rw [moved_start, h1]; rfl
      · obtain ⟨x, hx, hax⟩ := List.mem_map.mp ha
        have hst : a.start = x.end_ := by
          have := congrArg Edge.end_ hax
          rw [moved_end, Edge.getTwin_end] at this
          exact this.symm
        simp only [Vertex.getEdgesDir, List.mem_filter] at hx
        obtain ⟨w, hw, _⟩ := hti e.end_ (getVertex_lt h2) v2 h2 x hx.1
        have hw1 : getVertex g x.end_ = some w := hw
        rw [hst, hw1]; rfl
    · intro x
      rw [rems_mergeAllOps, count_pairs]
      by_cases hxe : x = e
      · subst hxe
        have h0 : [x].count x.getTwin = 0 := by
          rw [List.count_eq_zero]; simp
          exact fun hh => hnt hh
        have h3 := List.count_pos_iff.mpr he1
        have h6 : [x].count x = 1 := by simp
        rw [hs, h0, h6]
        omega
      · have h0 : [e].count x = 0 := by
          rw [List.count_eq_zero]; simp
          exact hxe
        rw [h0]
        by_cases hxt : x.getTwin = e
        · have hx2 : x = e.getTwin := by rw [← hxt, Edge.getTwin_getTwin]
          subst hx2
          have h3 : e.getTwin ∈ edgesAt g e.end_ := mem_edgesAt.mpr ⟨v2, h2, htw⟩
          have h4 := List.count_pos_iff.mpr h3
          have h6 : [e].count e = 1 := by simp
          rw [Edge.getTwin_start, Edge.getTwin_getTwin, h6]
          omega
        · have h5 : [e].count x.getTwin = 0 := by
            rw [List.count_eq_zero]; simp
            exact hxt
          rw [h5]; omega
  obtain ⟨g3, hr⟩ := hrun
  rw [hr]
  simp only [Option.some_bind]
  obtain ⟨v2c, hv2c, _⟩ := (run_same hr).live h2
  obtain ⟨hwf3, hb3⟩ := mergeAllOps_valid hwf hb hr
  rw [hv2c]
  simp only []
  split
  · rw [hwf3.id_eq hv2c]
    obtain ⟨g4, _, hrv⟩ := removeVertex_succeeds hwf3 hb3 hv2c
    exact ⟨_, hrv⟩
  · exact ⟨g3, rfl⟩

theorem selfTwin_algebra (e x : Edge) (hxdir : x.dir = e.getTwin.dir.not)
    (hcomp : (if e.comp = .EC_REVERSE then x.flip else x).comp = .EC_REVERSE)
    (hB : x.getTwin.dir = e.dir → x.getTwin.comp = e.comp) : False := by
  rcases e with ⟨es, et, ed, ec⟩
  rcases x with ⟨xs, xt, xd, xc⟩
  cases ec <;> cases xc <;> cases ed <;> cases xd <;>
    simp_all [Edge.getTwin, Edge.flip, EdgeDir.not, EdgeComp.not]

/-- When `e` is the only edge of `p1` in its direction, no edge that the merge along
`e` re-anchors is its own twin. -/
theorem moved_not_selfTwin {g : SeqGraph} {p1 : Nat} {e x : Edge} {v1 v2 : Vertex}
    (hwf : WellFormed g) (hb : BalFull g) (h1 : getVertex g p1 = some v1)
    (hsingle : v1.getEdgesDir e.dir = [e]) (h2 : getVertex g e.end_ = some v2)
    (hx : x ∈ v2.getEdgesDir e.getTwin.dir.not) :
    (moved p1 (decide (e.comp = .EC_REVERSE)) x).getTwin ≠
      moved p1 (decide (e.comp = .EC_REVERSE)) x := by
  intro hself
  rw [Edge.getTwin_eq_self_iff, moved_start, moved_end] at hself
  obtain ⟨hse, hcomp⟩ := hself
  simp only [Vertex.getEdgesDir, List.mem_filter, decide_eq_true_eq] at hx
  obtain ⟨hxm, hxdir⟩ := hx
  have hti := twinInv_of_balFull hwf hb
  obtain ⟨w, hw, htw⟩ := hti e.end_ (getVertex_lt h2) v2 h2 x hxm
  have hw1 : getVertex g x.end_ = some w := hw
  rw [← hse, h1] at hw1
  simp only [Option.some.injEq] at hw1
  subst hw1
  apply selfTwin_algebra e x hxdir
  · by_cases hc : e.comp = .EC_REVERSE <;> simpa [moved, hc] using hcomp
  · intro hd
    have hin : x.getTwin ∈ v1.getEdgesDir e.dir := by
      simp only [Vertex.getEdgesDir, List.mem_filter, decide_eq_true_eq]
      exact ⟨htw, hd⟩
    rw [hsingle] at hin
    simp only [List.mem_singleton] at hin
    rw [hin]

theorem removeVertex_other_live {g g1 : SeqGraph} {id i : Nat} {v : Vertex}
    (h : removeVertex g id = some g1) (hi : i ≠ id) (hv : getVertex g i = some v) :
    (getVertex g1 i).isSome = true := by
  obtain ⟨u, g0, hu, hr, rfl⟩ := removeVertex_eq_some h
  have hsame := run_same hr
  have hlt : id < g0.length := by rw [hsame.1]; exact getVertex_lt hu
  obtain ⟨w, hw, _⟩ := hsame.live hv
  rw [getVertex_set hlt]
  simp [hi, hw]

/-- The merge that `simplify` performs at the live vertex `p`, along the only edge
`e` of `p` in its direction: it keeps the invariants, the number of slots, and the
vertex `p` itself. -/
theorem merge_single_inv {g g1 : SeqGraph} {p : Nat} {e : Edge} {v : Vertex}
    (hwf : WellFormed g) (hb : BalFull g) (hnst : NoSelfTwin g)
    (hv : getVertex g p = some v) (hsingle : v.getEdgesDir e.dir = [e])
    (hm : mergeAlongEdge g p e.end_ e = some g1) :
    WellFormed g1 ∧ BalFull g1 ∧ NoSelfTwin g1 ∧ g1.length = g.length ∧
      (getVertex g1 p).isSome = true := by
  have hmem : e ∈ v.getEdges := by
    have : e ∈ v.getEdgesDir e.dir := by rw [hsingle]; simp
    simp only [Vertex.getEdgesDir, List.mem_filter] at this
    exact this.1
  have he1 : e ∈ edgesAt g p := mem_edgesAt.mpr ⟨v, hv, hmem⟩
  have hs : e.start = p := hwf.start_eq he1
  have hnt : e.getTwin ≠ e := hnst p e he1
  have hti := twinInv_of_balFull hwf hb
  obtain ⟨v2, hv2, htw⟩ := hti p (getVertex_lt hv) v hv e hmem
  have h2 : getVertex g e.end_ = some v2 := hv2
  obtain ⟨hwf1, hb1, hlen⟩ := mergeAlongEdge_valid hwf hb hv h2 hmem rfl hm
  obtain ⟨g3, v2c, hr, hv2c, hcase⟩ := mergeAlongEdge_eq_some hwf hv h2 hmem rfl hm
  have hsame := run_same hr
  have hcnt := run_count hr
  rw [adds_mergeAllOps, rems_mergeAllOps] at hcnt
  have hnst3 : NoSelfTwin g3 := by
    intro i a ha hself
    rw [run_edgesAt hr i] at ha
    rcases mem_effects ha with h0 | ⟨h0, _⟩
    · exact hnst i a h0 hself
    · rw [adds_mergeAllOps, mem_pairs, hself] at h0
      have h00 : a ∈ (v2.getEdgesDir e.getTwin.dir.not).map
          (moved p (decide (e.comp = .EC_REVERSE))) := by
        rcases h0 with h0 | h0 <;> exact h0
      obtain ⟨x, hx, rfl⟩ := List.mem_map.mp h00
      exact moved_not_selfTwin hwf hb hv hsingle h2 hx hself
  have hnst1 : NoSelfTwin g1 := by
    rcases hcase with ⟨_, hrv⟩ | ⟨_, rfl⟩
    · intro i a ha
      have := removeVertex_count_le hrv i a
      have hpos := List.count_pos_iff.mpr ha
      exact hnst3 i a (List.count_pos_iff.mp (by omega))
    · exact hnst3
  refine ⟨hwf1, hb1, hnst1, hlen, ?_⟩
  obtain ⟨w3, hw3, _⟩ := hsame.live hv
  rcases hcase with ⟨hc, hrv⟩ | ⟨_, rfl⟩
  · by_cases hpe : e.end_ = p
    · -- `e` is an edge of `p` to itself: the merge restores it and nothing is deleted
      exfalso
      rw [hpe] at h2 hv2c
      rw [hv] at h2
      simp only [Option.some.injEq] at h2
      subst h2
      have hcS : e.comp = .EC_SAME := by
        have := (Edge.getTwin_eq_self_iff e).not.mp hnt
        rw [hs, hpe] at this
        cases hc2 : e.comp
        · rfl
        · exact absurd ⟨rfl, hc2⟩ this
      have htd : e.getTwin.dir.not = e.dir := by
        simp [Edge.getTwin, hcS, EdgeDir.not_not]
      have hmv : moved p (decide (e.comp = .EC_REVERSE)) e = e := by
        rcases e with ⟨es, et, ed, ec⟩
        simp only at hs hcS
        subst hs hcS
        simp [moved]
      rw [htd, hsingle] at hcnt
      simp only [List.map_cons, List.map_nil, hmv] at hcnt
      have h5 := hcnt p e.getTwin
      simp only [Edge.getTwin_start, hpe, if_true] at h5
      have h6 : e.getTwin ∈ edgesAt g p := mem_edgesAt.mpr ⟨v, hv, htw⟩
      have h7 := List.count_pos_iff.mpr h6
      have h8 : e.getTwin ∈ v2c.getEdgesDir e.getTwin.dir := by
        simp only [Vertex.getEdgesDir, List.mem_filter, decide_True, and_true]
        have : e.getTwin ∈ edgesAt g3 p := List.count_pos_iff.mp (by omega)
        rw [edgesAt_of_getVertex hv2c] at this
        exact this
      unfold Vertex.countEdgesDir at hc
      rw [List.length_eq_zero] at hc
      rw [hc] at h8
      simp at h8
    · exact removeVertex_other_live hrv (fun hh => hpe hh.symm) hw3
  · simp [hw3]

theorem simplifyDir_inv {g : SeqGraph} {p : Nat} {v : Vertex} (dir : EdgeDir)
    (hwf : WellFormed g) (hb : BalFull g) (hnst : NoSelfTwin g)
    (hv : getVertex g p = some v) :
    ∃ g1, simplifyDir p g dir = some g1 ∧ WellFormed g1 ∧ BalFull g1 ∧ NoSelfTwin g1 ∧
      g1.length = g.length ∧ (getVertex g1 p).isSome = true := by
  have hstay : ∃ g1, some g = some g1 ∧ WellFormed g1 ∧ BalFull g1 ∧ NoSelfTwin g1 ∧
      g1.length = g.length ∧ (getVertex g1 p).isSome = true :=
    ⟨g, rfl, hwf, hb, hnst, rfl, by simp [hv]⟩
  unfold simplifyDir
  simp only [hv]
  rcases hl : v.getEdgesDir dir with _ | ⟨e, rest⟩
  · exact hstay
  · rcases rest with _ | ⟨e2, rest2⟩
    · simp only []
      have hin : e ∈ v.getEdgesDir dir := by rw [hl]; simp
      simp only [Vertex.getEdgesDir, List.mem_filter, decide_eq_true_eq] at hin
      obtain ⟨hmem, hdir⟩ := hin
      have hsingle : v.getEdgesDir e.dir = [e] := by rw [hdir]; exact hl
      have hnt : e.getTwin ≠ e := hnst p e (mem_edgesAt.mpr ⟨v, hv, hmem⟩)
      obtain ⟨w, hw, _⟩ := twinInv_of_balFull hwf hb p (getVertex_lt hv) v hv e hmem
      have hw1 : getVertex g e.end_ = some w := hw
      rw [hw1]
      simp only []
      obtain ⟨g1, hm⟩ := mergeAlongEdge_succeeds hwf hb hv hmem hnt
      exact ⟨g1, hm, merge_single_inv hwf hb hnst hv hsingle hm⟩
    · exact hstay

theorem simplifyDirs_inv {g : SeqGraph} {p : Nat} {v : Vertex} (dirs : List EdgeDir)
    (hwf : WellFormed g) (hb : BalFull g) (hnst : NoSelfTwin g)
    (hv : getVertex g p = some v) :
    ∃ g1, simplifyDirs p dirs g = some g1 ∧ WellFormed g1 ∧ BalFull g1 ∧ NoSelfTwin g1 ∧
      g1.length = g.length := by
  induction dirs generalizing g v with
  | nil => exact ⟨g, rfl, hwf, hb, hnst, rfl⟩
  | cons d rest ih =>
    obtain ⟨g1, hs, hwf1, hb1, hnst1, hlen1, hlive⟩ := simplifyDir_inv d hwf hb hnst hv
    obtain ⟨w, hw⟩ := Option.isSome_iff_exists.mp hlive
    obtain ⟨g2, hs2, hwf2, hb2, hnst2, hlen2⟩ := ih hwf1 hb1 hnst1 hw
    refine ⟨g2, ?_, hwf2, hb2, hnst2, hlen2.trans hlen1⟩
    simp only [simplifyDirs, hs]
    exact hs2

theorem simplifyLoop_inv {g : SeqGraph} (ps : List Nat)
    (hwf : WellFormed g) (hb : BalFull g) (hnst : NoSelfTwin g) :
    ∃ g1, simplifyLoop ps g = some g1 ∧ WellFormed g1 ∧ BalFull g1 ∧ NoSelfTwin g1 ∧
      g1.length = g.length := by
  induction ps generalizing g with
  | nil => exact ⟨g, rfl, hwf, hb, hnst, rfl⟩
  | cons p rest ih =>
    rcases hslot : g[p]? with _ | s
    · obtain ⟨g1, h1, r⟩ := ih hwf hb hnst
      exact ⟨g1, by simp only [simplifyLoop, hslot]; exact h1, r⟩
    · rcases s with _ | v
      · obtain ⟨g1, h1, r⟩ := ih hwf hb hnst
        exact ⟨g1, by simp only [simplifyLoop, hslot]; exact h1, r⟩
      · have hv : getVertex g p = some v := getVertex_eq_some.mpr hslot
        obtain ⟨g1, hs, hwf1, hb1, hnst1, hlen1⟩ :=
          simplifyDirs_inv EDGE_DIRECTIONS hwf hb hnst hv
        obtain ⟨g2, hs2, hwf2, hb2, hnst2, hlen2⟩ := ih hwf1 hb1 hnst1
        refine ⟨g2, ?_, hwf2, hb2, hnst2, hlen2.trans hlen1⟩
        simp only [simplifyLoop, hslot, hs]
        exact hs2

theorem noSelfTwin_of_noSelfLoops {g : SeqGraph} (hwf : WellFormed g) (h : NoSelfLoops g) :
    NoSelfTwin g := by
  intro i e he hself
  have hst := hwf.start_eq he
  have := ((Edge.getTwin_eq_self_iff e).mp hself).1
  exact h i (lt_of_mem_edgesAt he) e he (by rw [← this, hst])

/-- C20: on a well-formed graph that satisfies the twin invariant, has no edge from a
vertex to itself and no duplicate edge in any vertex, `simplify()` runs to
completion (no assertion fails and no deleted vertex is used) and does not change
the number of slots; the result is again well-formed and satisfies the twin
invariant. -/
theorem simplify_safe (g : SeqGraph) (hwf : WellFormed g) (hti : TwinInv g)
    (hloops : NoSelfLoops g) (hnd : NoDupEdges g) :
    ∃ g1, simplify g = some g1 ∧ g1.length = g.length ∧ WellFormed g1 ∧ TwinInv g1 := by
  have hb := balFull_of_balanced (balanced_of_twinInv_nodup hti hnd)
  obtain ⟨g1, hs, hwf1, hb1, _, hlen⟩ :=
    simplifyLoop_inv (List.range g.length) hwf hb (noSelfTwin_of_noSelfLoops hwf hloops)
  exact ⟨g1, hs, hlen, hwf1, twinInv_of_balFull hwf1 hb1⟩

/-- C20, witness: `simplify()` on the chain. -/
theorem simplify_safe_witness :
    ∃ g1, simplify chainGraph = some g1 ∧ g1.length = chainGraph.length ∧
      WellFormed g1 ∧ TwinInv g1 :=
  simplify_safe chainGraph (by decide) (by decide) (by decide) (by decide)

/-! ## Well-formedness is kept by every call -/

theorem wellFormed_nil : WellFormed [] := by
  intro i hi
  simp at hi

theorem removeVertex_wellFormed {g g1 : SeqGraph} {id : Nat} (hwf : WellFormed g)
    (h : removeVertex g id = some g1) : WellFormed g1 := by
  obtain ⟨v, g0, hv, hr, rfl⟩ := removeVertex_eq_some h
  have hwf0 := run_wellFormed hwf hr
  have hlt : id < g0.length := by rw [(run_same hr).1]; exact getVertex_lt hv
  rw [wellFormed_iff] at hwf0 ⊢
  refine ⟨fun i w hw => ?_, fun i e he => ?_⟩
  · rw [getVertex_set hlt] at hw
    by_cases hi : i = id
    · simp [hi] at hw
    · simp only [hi, if_false] at hw
      exact hwf0.1 i w hw
  · obtain ⟨w, hw, hm⟩ := mem_edgesAt.mp he
    rw [getVertex_set hlt] at hw
    by_cases hi : i = id
    · simp [hi] at hw
    · simp only [hi, if_false] at hw
      exact hwf0.2 i e (mem_edgesAt.mpr ⟨w, hw, hm⟩)

theorem mergeAlongEdge_wellFormed {g g1 : SeqGraph} {p1 p2 : Nat} {edge : Edge} {v1 : Vertex}
    (hwf : WellFormed g) (h1 : getVertex g p1 = some v1) (hmem : edge ∈ v1.getEdges)
    (he : edge.end_ = p2) (hm : mergeAlongEdge g p1 p2 edge = some g1) : WellFormed g1 := by
  rcases h2 : getVertex g p2 with _ | v2
  · simp [mergeAlongEdge, h2] at hm
  · obtain ⟨g3, _, hr, _, hcase⟩ := mergeAlongEdge_eq_some hwf h1 h2 hmem he hm
    have hwf3 := run_wellFormed hwf hr
    rcases hcase with ⟨_, hrv⟩ | ⟨_, rfl⟩
    · exact removeVertex_wellFormed hwf3 hrv
    · exact hwf3

theorem mergeVertices_wellFormed {g g1 : SeqGraph} {id1 id2 : Nat} (hwf : WellFormed g)
    (h : mergeVertices g id1 id2 = some g1) : WellFormed g1 := by
  unfold mergeVertices at h
  rcases h1 : getVertex g id1 with _ | v1
  · rw [h1] at h; simp at h
  · rw [h1] at h
    simp only [] at h
    rcases h2 : getVertex g id2 with _ | v2
    · rw [h2] at h; simp at h
    · rw [h2] at h
      simp only [] at h
      split at h
      · simp at h; subst h; exact hwf
      · split at h
        · simp at h; subst h; exact hwf
        · split at h
          · simp at h
          · next e rest heq =>
            have hin : e ∈ v1.findEdgesTo id2 := by rw [heq]; simp
            simp only [Vertex.findEdgesTo, List.mem_filter, decide_eq_true_eq] at hin
            exact mergeAlongEdge_wellFormed hwf h1 hin.1 hin.2 h

theorem simplifyDir_wellFormed {g g1 : SeqGraph} {p : Nat} {dir : EdgeDir} (hwf : WellFormed g)
    (h : simplifyDir p g dir = some g1) : WellFormed g1 := by
  unfold simplifyDir at h
  rcases hv : getVertex g p with _ | v
  · rw [hv] at h; simp at h
  · rw [hv] at h
    simp only [] at h
    split at h
    · next single heq =>
      rcases ht : getVertex g single.end_ with _ | w
      · rw [ht] at h; simp at h
      · rw [ht] at h
        have hin : single ∈ v.getEdgesDir dir := by rw [heq]; simp
        simp only [Vertex.getEdgesDir, List.mem_filter] at hin
        exact mergeAlongEdge_wellFormed hwf hv hin.1 rfl h
    · simp at h; subst h; exact hwf

theorem simplifyDirs_wellFormed {g g1 : SeqGraph} {p : Nat} {dirs : List EdgeDir}
    (hwf : WellFormed g) (h : simplifyDirs p dirs g = some g1) : WellFormed g1 := by
  induction dirs generalizing g with
  | nil => simp [simplifyDirs] at h; subst h; exact hwf
  | cons d rest ih =>
    simp only [simplifyDirs] at h
    rcases hs : simplifyDir p g d with _ | g2
    · rw [hs] at h; simp at h
    · rw [hs] at h
      exact ih (simplifyDir_wellFormed hwf hs) h

theorem simplifyLoop_wellFormed {g g1 : SeqGraph} {ps : List Nat} (hwf : WellFormed g)
    (h : simplifyLoop ps g = some g1) : WellFormed g1 := by
  induction ps generalizing g with
  | nil => simp [simplifyLoop] at h; subst h; exact hwf
  | cons p rest ih =>
    simp only [simplifyLoop] at h
    split at h
    · rcases hs : simplifyDirs p EDGE_DIRECTIONS g with _ | g2
      · rw [hs] at h; simp at h
      · rw [hs] at h
        exact ih (simplifyDirs_wellFormed hwf hs) h
    · exact ih hwf h

theorem flip_wellFormed {g g1 : SeqGraph} {id : Nat} (hwf : WellFormed g)
    (h : flip g id = some g1) : WellFormed g1 := by
  rcases hv : getVertex g id with _ | v
  · simp [flip, hv] at h
  · rw [flip_eq_run hwf hv] at h
    exact run_wellFormed hwf h

theorem addVertex_wellFormed {g g1 : SeqGraph} {v : Vertex} (hwf : WellFormed g)
    (hown : ∀ e ∈ v.getEdges, e.start = v.getID) (h : addVertex g v = some g1) :
    WellFormed g1 := by
  obtain ⟨hid, rfl⟩ := addVertex_eq_some h
  intro i _ w hw
  have hw1 : getVertex (g ++ [some v]) i = some w := hw
  rw [getVertex_eq_some, List.getElem?_append] at hw1
  by_cases hi : i < g.length
  · simp only [hi, if_true] at hw1
    exact hwf i hi w (getVertex_eq_some.mpr hw1)
  · simp only [hi, if_false] at hw1
    have hi0 : i - g.length = 0 := by
      by_contra hc
      rw [List.getElem?_eq_none (by simp; omega)] at hw1
      simp at hw1
    rw [hi0] at hw1
    simp only [List.getElem?_cons_zero, Option.some.injEq] at hw1
    subst hw1
    have : i = g.length := by omega
    subst this
    exact ⟨hid, fun e he => (hown e he).trans hid⟩

/-- Every graph built from the empty one by calls of the container is well-formed,
as long as the vertices handed to `addVertex` own only edges that start at
them. -/
theorem execAll_wellFormed {calls : List Call} {g g1 : SeqGraph} (hwf : WellFormed g)
    (hown : ∀ c ∈ calls, c.OwnEdges) (h : execAll calls g = some g1) : WellFormed g1 := by
  induction calls generalizing g with
  | nil => simp [execAll] at h; subst h; exact hwf
  | cons c rest ih =>
    simp only [execAll] at h
    rcases hc : c.exec g with _ | g2
    · rw [hc] at h; simp at h
    · rw [hc] at h
      refine ih ?_ (fun c1 hc1 => hown c1 (by simp [hc1])) h
      have hc0 := hown c (by simp)
      cases c with
      | addVertex pVert => exact addVertex_wellFormed hwf hc0 hc
      | removeVertex id => exact removeVertex_wellFormed hwf hc
      | addEdge id1 id2 dir comp =>
        simp only [Call.exec] at hc
        rcases hv : getVertex g id1 with _ | v
        · simp [addEdge, hv] at hc
        · have hrun : run [Op.add ⟨id1, id2, dir, comp⟩] g = some g2 := by
            simp only [run, Op.apply]
            rw [ptrAddEdge_eq _ hv]
            simp only []
            simp only [addEdge, hv, Vertex.addEdgeTo, hwf.id_eq hv, Option.some.injEq] at hc
            have hid : v.id = id1 := hwf.id_eq hv
            rw [hid] at hc
            rw [hc]
          exact run_wellFormed hwf hrun
      | removeEdge id1 id2 dir comp =>
        have hrun : run [Op.rem ⟨id1, id2, dir, comp⟩] g = some g2 := by
          simp only [run, Op.apply]
          simp only [Call.exec, removeEdge] at hc
          rw [hc]
        exact run_wellFormed hwf hrun
      | mergeVertices id1 id2 => exact mergeVertices_wellFormed hwf hc
      | simplify => exact simplifyLoop_wellFormed hwf hc
      | flip id => exact flip_wellFormed hwf hc

/-! ## flip twice, and the twin of an edge -/

/-- C22: the twin of an edge `(u, v, dir, comp)` starts at `v`, ends at `u` and has
the same complement; the twin of the twin is the edge itself; and an edge is its
own twin exactly when `u = v` and the complement is reverse-strand. -/
theorem twin_involution (e : Edge) :
    e.getTwin.start = e.end_ ∧ e.getTwin.end_ = e.start ∧ e.getTwin.comp = e.comp ∧
      e.getTwin.getTwin = e ∧
      (e.getTwin = e ↔ e.start = e.end_ ∧ e.comp = .EC_REVERSE) :=
  ⟨rfl, rfl, rfl, Edge.getTwin_getTwin e, Edge.getTwin_eq_self_iff e⟩

end SGA
